import Mathlib

/-!
Verification of the IBoat-PMCTS master tree (`code/solver/master.py`).

The shallow embedding below translates the `MasterTree` / `MasterNode`
classes into pure Lean definitions.  Python objects live in the dictionary
`MasterTree.nodes` keyed by their hash, so the embedding is an arena:
nodes are stored in an association list keyed by the (integer) hash, and
object references (`parentNode`, `children`) become keys into that arena.

The module `master.py` imports a few names whose defining files are not
part of the sources (`utils.Hist`, `simulatorTLKT.ACTIONS` / `A_DICT`,
`worker.UCT_COEFF`, and Python's builtin `hash`).  Those are modelled from
the specification and kept as parameters in an `Env` record, so every
theorem holds for any faithful instantiation.

Rewards and probabilities are modelled over `ℚ`; the real-valued
functions `log` and `sqrt` used by the UCT formula are opaque parameters
of the environment (`rlog`, `rsqrt`), since every claim about `get_uct`
is structural in them.
-/

namespace IBoat

/-- Modelled from the spec: the collaborators of `master.py` that are not in
the sources.
* `ACTIONS` (simulator): "the finite, ordered action set" (§6), e.g.
  `[0, 90, 180, 270]` headings;
* `A_DICT` (simulator): the "action→index mapping", realised below as the
  index in the ordered list `ACTIONS`;
* `UCT_COEFF` (worker): "a tunable exploration constant" C (§4.3);
* `nb`/`bucket`/`means` (utils.Hist): a "fixed-bucket frequency
  distribution over a reward domain" (§2): `bucket v` is the index of the
  bucket whose range contains `v`, `means i` is the center value of bucket
  `i` (§4.1);
* `hashT`: Python's builtin stable hash of the tuple of actions
  (`hash(tuple(origins))`), an opaque key-making function (§3 NodeHash);
* `rlog`, `rsqrt`: the real functions `math.log` (on positive integer
  counts) and `x ** 0.5` appearing in the UCT exploration term. -/
structure Env where
  ACTIONS : List ℤ
  UCT_COEFF : ℚ
  nb : ℕ
  bucket : ℚ → ℕ
  means : ℕ → ℚ
  hashT : List ℤ → ℤ
  rlog : ℕ → ℚ
  rsqrt : ℚ → ℚ
  bucket_lt : ∀ v, bucket v < nb

/-- `A_DICT[a]`: the index of action `a` in the ordered action set.
For an action absent from `ACTIONS` this yields `ACTIONS.length`, an
out-of-range index that every indexed access below treats as a no-op /
empty read; in Python the same situation raises `KeyError` and is
unreachable on the API's own call paths. -/
def Env.aIdx (env : Env) (a : ℤ) : ℕ := env.ACTIONS.indexOf a

/-- The key of the root node: `hash(tuple([]))`. -/
def Env.rootHash (env : Env) : ℤ := env.hashT []

/-! ### Small list helpers (explicit, so that all proofs are elementary) -/

/-- Update the element at index `i` (no-op when out of range). -/
def setAt {α : Type} (i : ℕ) (f : α → α) : List α → List α
  | [] => []
  | x :: xs =>
    match i with
    | 0 => f x :: xs
    | j + 1 => x :: setAt j f xs

/-- Sum of a list of rationals. -/
def qsum (l : List ℚ) : ℚ := l.foldr (· + ·) 0

/-- Sum of a list of naturals. -/
def nsum (l : List ℕ) : ℕ := l.foldr (· + ·) 0

/-- `np.dot` on two equally long vectors. -/
def dot (xs ys : List ℚ) : ℚ := qsum (List.zipWith (· * ·) xs ys)

/-- Maximum of a list of rationals (`0` for the empty list; every use
below is on a nonempty list). -/
def listMax : List ℚ → ℚ
  | [] => 0
  | x :: xs => xs.foldl max x

/-- Maximum of a list of naturals (`0` for the empty list). -/
def listMaxNat (l : List ℕ) : ℕ := l.foldr max 0

/-! ### RewardHistogram (`utils.Hist`) -/

/-- Modelled from the spec: `utils.Hist`, a reward histogram.  Its state
is the per-bucket count vector `h` (the attribute `self.h` read by
`master.py` as `hist.h`). -/
structure Hist where
  h : List ℕ
deriving DecidableEq

/-- A fresh histogram: every bucket count is `0`. -/
def Hist.empty (env : Env) : Hist := ⟨List.replicate env.nb 0⟩

/-- Modelled from the spec: `add(value)` "increments the count of the
bucket whose range contains `value`" (§4.1). -/
def Hist.add (env : Env) (r : ℚ) (hi : Hist) : Hist :=
  ⟨setAt (env.bucket r) (· + 1) hi.h⟩

/-- Total observation count of a histogram: `sum(hist.h)`. -/
def Hist.total (hi : Hist) : ℕ := nsum hi.h

/-- Modelled from the spec: `get_mean()` "returns the count-weighted
average of bucket center values; returns 0 when total count is 0" (§4.1). -/
def Hist.get_mean (env : Env) (hi : Hist) : ℚ :=
  if hi.total = 0 then 0
  else qsum ((List.range hi.h.length).map
    (fun i => (hi.h.getD i 0 : ℚ) * env.means i)) / (hi.total : ℚ)

/-- Modelled from the spec: `is_empty()` is "true iff total count across
all buckets is 0" (§4.1). -/
def Hist.is_empty (hi : Hist) : Bool := hi.total = 0

/-! ### MasterNode -/

/-- `MasterNode.__init__` (master.py:395): hash, incoming arm (`action`),
parent reference, `numscenarios × len(ACTIONS)` grid of fresh histograms,
empty children list, unset depth.  Object references become arena keys:
`parentNode` and `children` hold hashes. -/
structure MasterNode where
  nhash : ℤ
  arm : Option ℤ
  parentNode : Option ℤ
  rewards : List (List Hist)
  children : List ℤ
  depth : Option ℕ
deriving DecidableEq

/-- A freshly constructed `MasterNode(numscenarios, nodehash, parentNode,
action)`. -/
def MasterNode.init (env : Env) (numscenarios : ℕ) (nodehash : ℤ)
    (parentNode : Option ℤ) (action : Option ℤ) : MasterNode :=
  { nhash := nodehash
    arm := action
    parentNode := parentNode
    rewards := List.replicate numscenarios
      (List.replicate env.ACTIONS.length (Hist.empty env))
    children := []
    depth := none }

/-- `MasterNode.add_reward` (master.py:403): add `reward` into the
histogram of every action of scenario `idscenario`.  (A scenario index out
of range is a no-op here; in Python it raises `IndexError` and is
unreachable on the API's call paths.) -/
def MasterNode.add_reward (env : Env) (idscenario : ℕ) (reward : ℚ)
    (n : MasterNode) : MasterNode :=
  { n with rewards := setAt idscenario (List.map (Hist.add env reward)) n.rewards }

/-- `MasterNode.add_reward_action` (master.py:412): add `reward` into the
histogram of `(idscenario, A_DICT[action])`. -/
def MasterNode.add_reward_action (env : Env) (idscenario : ℕ) (action : ℤ)
    (reward : ℚ) (n : MasterNode) : MasterNode :=
  { n with rewards :=
      setAt idscenario (setAt (env.aIdx action) (Hist.add env reward)) n.rewards }

/-- `MasterNode.is_expanded` (master.py:433): some action histogram of the
scenario is nonempty. -/
def MasterNode.is_expanded (idscenario : ℕ) (n : MasterNode) : Bool :=
  ¬ (n.rewards.getD idscenario []).all (fun hi => hi.is_empty)

/-! ### The arena (the dictionary `MasterTree.nodes`) -/

/-- The node dictionary: an insertion-ordered association list, as a
Python `dict` is. -/
abbrev Arena := List (ℤ × MasterNode)

/-- Dictionary lookup `nodes.get(k)` / `nodes[k]`. -/
def alookup (k : ℤ) : Arena → Option MasterNode
  | [] => none
  | p :: ps => if p.1 = k then some p.2 else alookup k ps

/-- In-place mutation of the node stored at key `k` (keys are unique in a
Python dict; updating all occurrences coincides with updating the one). -/
def amap (k : ℤ) (f : MasterNode → MasterNode) : Arena → Arena
  | [] => []
  | p :: ps => (if p.1 = k then (p.1, f p.2) else p) :: amap k f ps

/-! ### MasterTree -/

/-- `MasterTree` state: the node dictionary, the scenario probability
vector, the number of scenarios and the lazily computed maximal depth.
(The fields `Simulators`, `destination` and the four policy caches do not
take part in any claim's code path and are omitted from the state.) -/
structure MasterTree where
  nodes : Arena
  probability : List ℚ
  numScenarios : ℕ
  max_depth : Option ℕ
deriving DecidableEq

/-- `MasterTree.__init__` (master.py:32): uniform probability vector,
a node dictionary holding only the root `MasterNode` (whose key is the
hash of the empty action tuple), unset `max_depth`.  (`num_scenarios = 0`
would raise `ZeroDivisionError` in Python; here `1/0 = 0` — no claim
touches that corner.) -/
def MasterTree.init (env : Env) (num_scenarios : ℕ) : MasterTree :=
  { nodes := [(env.rootHash,
      MasterNode.init env num_scenarios env.rootHash none none)]
    probability := List.replicate num_scenarios (1 / (num_scenarios : ℚ))
    numScenarios := num_scenarios
    max_depth := none }

/-- `node.add_reward(...)` performed on the arena entry at key `k`. -/
def MasterTree.addReward (env : Env) (t : MasterTree) (k : ℤ) (s : ℕ)
    (r : ℚ) : MasterTree :=
  { t with nodes := amap k (MasterNode.add_reward env s r) t.nodes }

/-- `node.add_reward_action(...)` performed on the arena entry at key `k`. -/
def MasterTree.addRewardAction (env : Env) (t : MasterTree) (k : ℤ) (s : ℕ)
    (a : ℤ) (r : ℚ) : MasterTree :=
  { t with nodes := amap k (MasterNode.add_reward_action env s a r) t.nodes }

/-- `MasterNode.backup` (master.py:422), walking the parent chain of the
node at key `k`; the recursion is fuelled because a cyclic parent chain
would make Python recurse forever (`RecursionError`).  One unit of fuel is
spent per walked edge, and callers pass fuel at least the arena size,
enough for any tree whose parent chains are acyclic. -/
def MasterTree.backupFuel (env : Env) : ℕ → MasterTree → ℤ → ℕ → ℚ → MasterTree
  | 0, t, _, _, _ => t
  | fuel + 1, t, k, s, r =>
    match alookup k t.nodes with
    | none => t
    | some n =>
      match n.parentNode, n.arm with
      | none, _ => t
      | some pk, some a =>
        MasterTree.backupFuel env fuel (t.addRewardAction env pk s a r) pk s r
      | some _, none =>
        -- `A_DICT[None]` raises in Python before any mutation; no node
        -- with a parent but no arm is ever constructed by the API.
        t

/-- `node.backup(...)` with the canonical fuel (the arena size). -/
def MasterTree.backup (env : Env) (t : MasterTree) (k : ℤ) (s : ℕ)
    (r : ℚ) : MasterTree :=
  MasterTree.backupFuel env t.nodes.length t k s r

/-! ### Buffer integration (`MasterTree.integrate_buffer`, master.py:46) -/

/-- One worker update `[scenarioId, newNodeHash, parentHash, action, reward]`. -/
structure Update where
  scenarioId : ℕ
  newNodeHash : ℤ
  parentHash : ℤ
  action : ℤ
  reward : ℚ
deriving DecidableEq

/-- The body of the `integrate_buffer` loop for one update.  When
`newNodeHash` is unseen, `self.nodes[parentHash]` is evaluated first; a
missing parent raises `KeyError` before any node is created, modelled by
`Except.error`. -/
def MasterTree.integrate_update (env : Env) (t : MasterTree) (u : Update) :
    Except String MasterTree :=
  match alookup u.newNodeHash t.nodes with
  | some _ =>
    let t1 := t.addReward env u.newNodeHash u.scenarioId u.reward
    .ok (t1.backup env u.newNodeHash u.scenarioId u.reward)
  | none =>
    match alookup u.parentHash t.nodes with
    | none => .error "KeyError: parentHash not in self.nodes"
    | some _ =>
      let t0 : MasterTree := { t with nodes := t.nodes ++
        [(u.newNodeHash, MasterNode.init env t.numScenarios u.newNodeHash
          (some u.parentHash) (some u.action))] }
      let t1 := t0.addReward env u.newNodeHash u.scenarioId u.reward
      .ok (t1.backup env u.newNodeHash u.scenarioId u.reward)

/-- `MasterTree.integrate_buffer`: fold the loop body over the buffer in
order.  A raised `KeyError` aborts the loop; the mutations of the earlier
updates persist (the method mutates `self` in place), so the result is the
state reached so far paired with the error, if any. -/
def MasterTree.integrate_buffer (env : Env) (t : MasterTree) :
    List Update → MasterTree × Option String
  | [] => (t, none)
  | u :: rest =>
    match t.integrate_update env u with
    | .ok t1 => t1.integrate_buffer env rest
    | .error e => (t, some e)

/-! ### UCT scoring (`MasterTree.get_uct`, master.py:91) -/

/-- `num_parent`: the total observation count across all actions at the
parent, for scenario `s` (master.py:112–113).  (A row index out of range
reads `[]` here where Python raises `IndexError`; all nodes of one tree
share the same number of rows.) -/
def numParent (parent : MasterNode) (s : ℕ) : ℕ :=
  nsum ((parent.rewards.getD s []).map Hist.total)

/-- The reward-table column of a node's incoming arm, `A_DICT[node.arm]`
(an armless node reads the out-of-range column, which every access treats
as an empty histogram; Python would raise `KeyError`, and only the root is
armless). -/
def armIdx (env : Env) (n : MasterNode) : ℕ :=
  match n.arm with
  | some a => env.aIdx a
  | none => env.ACTIONS.length

/-- `num_node`: the count at the parent for this node's incoming action,
`sum(parent.rewards[s, A_DICT[node.arm]].h)` (master.py:115). -/
def numNode (env : Env) (parent node : MasterNode) (s : ℕ) : ℕ :=
  ((parent.rewards.getD s []).getD (armIdx env node) (Hist.empty env)).total

/-- The body of the per-scenario loop of `get_uct` (master.py:108–129),
translated clause by clause: the zero guard, the exploration term
`UCT_COEFF * (2*log(num_parent)/num_node) ** 0.5`, and the running
maximum (started at `0`) of `get_mean()` over the node's histograms. -/
def scenarioContribution (env : Env) (parent node : MasterNode) (s : ℕ) : ℚ :=
  let num_parent := numParent parent s
  let num_node := numNode env parent node s
  if num_parent = 0 ∨ num_node = 0 then 0
  else
    let exploration := env.UCT_COEFF * env.rsqrt (2 * env.rlog num_parent / (num_node : ℚ))
    let uct_max_on_actions := (node.rewards.getD s []).foldl
      (fun m hi => if Hist.get_mean env hi > m then Hist.get_mean env hi else m) 0
    uct_max_on_actions + exploration

/-- `math.log`, guarded: `none` models evaluating `log` on `0`. -/
def safeLog (env : Env) (n : ℕ) : Option ℚ :=
  if n = 0 then none else some (env.rlog n)

/-- Division by a count, guarded: `none` models dividing by `0`. -/
def safeDivByCount (a : ℚ) (n : ℕ) : Option ℚ :=
  if n = 0 then none else some (a / (n : ℚ))

/-- `scenarioContribution` instrumented so that the logarithm and the
division of the exploration term are partial operations that fail on a
zero argument. -/
def scenarioContributionChecked (env : Env) (parent node : MasterNode)
    (s : ℕ) : Option ℚ :=
  let num_parent := numParent parent s
  let num_node := numNode env parent node s
  if num_parent = 0 ∨ num_node = 0 then some 0
  else
    (safeLog env num_parent).bind (fun l =>
      (safeDivByCount (2 * l) num_node).map (fun q =>
        let exploration := env.UCT_COEFF * env.rsqrt q
        let uct_max_on_actions := (node.rewards.getD s []).foldl
          (fun m hi => if Hist.get_mean env hi > m then Hist.get_mean env hi else m) 0
        uct_max_on_actions + exploration))

/-- The specification's per-scenario contribution, written from the
spec's words (§4.3 `get_uct`): if `num_parent` or `num_node` is 0 the
contribution is 0 (undefined confidence bound); else it is
"`exploitation = max over actions of get_mean()` at this node for that
scenario" plus "`exploration = C * sqrt(2*ln(num_parent) / num_node)`". -/
def specContribution (env : Env) (parent node : MasterNode) (s : ℕ) : ℚ :=
  let num_parent := numParent parent s
  let num_node := numNode env parent node s
  if num_parent = 0 ∨ num_node = 0 then 0
  else
    listMax ((node.rewards.getD s []).map (Hist.get_mean env))
      + env.UCT_COEFF * env.rsqrt (2 * env.rlog num_parent / (num_node : ℚ))

/-- The per-scenario loop of `get_uct` (master.py:108–129), over the
scenario indices.  Each iteration dereferences `master_node.parentNode`
inside its body (`master_node.parentNode.rewards[s]`, master.py:112), so
a null parent raises `AttributeError` only when the loop runs at least
one iteration; with an empty reward table the loop body never executes.
(The dangling-parent error is an artifact of the arena translation:
Python follows an object reference, and every parent reference the API
creates is in the dict.) -/
def uctPerScenario (env : Env) (t : MasterTree) (master_node : MasterNode) :
    List ℕ → Except String (List ℚ)
  | [] => .ok []
  | s :: rest =>
    match master_node.parentNode with
    | none => .error "AttributeError: NoneType has no attribute rewards"
    | some pk =>
      match alookup pk t.nodes with
      | none => .error "dangling parent reference"
      | some parent =>
        match uctPerScenario env t master_node rest with
        | .ok l => .ok (scenarioContribution env parent master_node s :: l)
        | .error e => .error e

/-- `MasterTree.get_uct` (master.py:91): hash the worker node's action
sequence (`origins`); a miss scores `0`; otherwise run the per-scenario
loop (`uctPerScenario`, whose body dereferences the parent) and take
`np.dot` of the collected scores with the probability vector. -/
def MasterTree.get_uct (env : Env) (t : MasterTree) (origins : List ℤ) :
    Except String ℚ :=
  let node_hash := env.hashT origins
  match alookup node_hash t.nodes with
  | none => .ok 0
  | some master_node =>
    match uctPerScenario env t master_node
        (List.range master_node.rewards.length) with
    | .error e => .error e
    | .ok ucts => .ok (dot ucts t.probability)

/-! ### Children and depth (`get_children`, `get_depth`) -/

/-- `node.parentNode.children.append(node)` for one non-root node
(master.py:141).  A parentless non-root node would raise
`AttributeError`; the API never creates one, modelled as a no-op. -/
def appendChild (childKey : ℤ) (pk : Option ℤ) (ar : Arena) : Arena :=
  match pk with
  | none => ar
  | some p => amap p (fun n => { n with children := n.children ++ [childKey] }) ar

/-- `MasterTree.get_children` (master.py:133): iterate the non-root
entries of the dict in insertion order and append each to its parent's
children list.  (`parentNode` is never mutated, so reading it from the
snapshot copy `dict(self.nodes)` agrees with reading it live.) -/
def MasterTree.get_children (env : Env) (t : MasterTree) : MasterTree :=
  let nonRoot := t.nodes.filter (fun p => decide (¬ p.1 = env.rootHash))
  let ar := nonRoot.foldl (fun ar p => appendChild p.1 p.2.parentNode ar) t.nodes
  { t with nodes := ar }

/-- `n.depth = d`: the depth assignment mutation. -/
def setDepth (d : ℕ) (n : MasterNode) : MasterNode :=
  { n with depth := some d }

/-- Set `depth := some d` on the arena entries of all of `ks`
(the inner `for n in node.children` loop of master.py:153–155). -/
def setDepths (ks : List ℤ) (d : ℕ) (ar : Arena) : Arena :=
  ks.foldl (fun a ck => amap ck (setDepth d) a) ar

/-- The `while list_nodes:` loop of `get_depth` (master.py:151–155),
fuelled: one unit per pop.  A popped key missing from the dict cannot
happen (children lists hold dict keys); a popped node with unset depth
and children would raise `TypeError` (`None + 1`) in Python, modelled as
an abort; running out of fuel models the infinite loop Python enters on a
cyclic children structure. -/
def bfsFuel (fuel : ℕ) (ar : Arena) (queue : List ℤ) : Arena :=
  match fuel, queue with
  | _, [] => ar
  | 0, _ => ar
  | fuel + 1, k :: rest =>
    match alookup k ar with
    | none => ar
    | some n =>
      match n.depth with
      | some d => bfsFuel fuel (setDepths n.children (d + 1) ar) (rest ++ n.children)
      | none => if n.children.isEmpty then bfsFuel fuel ar rest else ar

/-- `MasterTree.get_depth` (master.py:143): set the root's depth to 0,
run the breadth-first loop from the root, then set `max_depth` to
`max(map(lambda i: self.nodes[i].depth, self.nodes))`.  (An unset depth
reads as 0 in the final maximum where Python raises `TypeError`; after a
correct `get_children` pass every depth is set.) -/
def MasterTree.get_depth (env : Env) (t : MasterTree) : MasterTree :=
  match alookup env.rootHash t.nodes with
  | none => t
  | some _ =>
    let ar0 := amap env.rootHash (setDepth 0) t.nodes
    let ar1 := bfsFuel ar0.length ar0 [env.rootHash]
    let md := listMaxNat (ar1.map (fun p => p.2.depth.getD 0))
    { t with nodes := ar1, max_depth := some md }

/-! ### Best-child selection (`get_best_child`, master.py:194) -/

/-- `reward_per_action[j]` for one child (master.py:199–210): the
probability-weighted mean across scenarios when `idscenario` is `None`,
else that scenario's mean directly. -/
def rewardPerAction (env : Env) (t : MasterTree) (idscenario : Option ℕ)
    (child : MasterNode) (j : ℕ) : ℚ :=
  match idscenario with
  | none => dot ((List.range t.numScenarios).map (fun i =>
      Hist.get_mean env ((child.rewards.getD i []).getD j (Hist.empty env))))
      t.probability
  | some i => Hist.get_mean env ((child.rewards.getD i []).getD j (Hist.empty env))

/-- `np.max(reward_per_action)` for one child.  (`np.max` on an empty
vector raises `ValueError`; `ACTIONS` is a nonempty action set.) -/
def candReward (env : Env) (t : MasterTree) (idscenario : Option ℕ)
    (child : MasterNode) : ℚ :=
  listMax ((List.range env.ACTIONS.length).map (rewardPerAction env t idscenario child))

/-- One step of the `for child in node.children` loop of
`get_best_child`: the running state is `(best_reward, best_child,
best_action)`; a child replaces the best only on a strictly larger
candidate reward, and the recorded action is the child's incoming `arm`
(master.py:211–214). -/
def bestChildStep (env : Env) (t : MasterTree) (idscenario : Option ℕ)
    (st : ℚ × Option ℤ × Option ℤ) (ck : ℤ) : ℚ × Option ℤ × Option ℤ :=
  match alookup ck t.nodes with
  | none => st
  | some child =>
    if candReward env t idscenario child > st.1
    then (candReward env t idscenario child, some ck, child.arm)
    else st

/-- `MasterTree.get_best_child` (master.py:194): fold the loop over the
children list starting from `best_reward = -1`, `best_child = None`,
`best_action = None`; return `(best_child, best_action)` (the chosen
child as its arena key). -/
def MasterTree.get_best_child (env : Env) (t : MasterTree) (node : MasterNode)
    (idscenario : Option ℕ) : Option ℤ × Option ℤ :=
  (node.children.foldl (bestChildStep env t idscenario) (-1, none, none)).2

/-! ### A concrete instantiation of the environment, used to evaluate the
theorems below on closed inputs. -/

/-- A concrete faithful environment: the four headings of the spec's
example action set, two reward buckets split at 6 with centers 3 and 12,
and a stand-in stable hash (the sequence length). -/
def testEnv : Env where
  ACTIONS := [0, 90, 180, 270]
  UCT_COEFF := 1
  nb := 2
  bucket := fun r => if r < 6 then 0 else 1
  means := fun i => if i = 0 then 3 else 12
  hashT := fun l => (l.length : ℤ)
  rlog := fun n => (n : ℚ)
  rsqrt := fun q => q
  bucket_lt := by
    intro v
    by_cases h : v < 6 <;> simp [h]

/-- Concrete root node (hash `0 = testEnv.hashT []`). -/
def rootW : MasterNode := MasterNode.init testEnv 1 0 none none

/-- Concrete chain node A: child of the root by action 90. -/
def nodeA : MasterNode := MasterNode.init testEnv 1 1 (some 0) (some 90)

/-- Concrete chain node B: child of A by action 180. -/
def nodeB : MasterNode := MasterNode.init testEnv 1 2 (some 1) (some 180)

/-- Concrete chain node C: child of B by action 270. -/
def nodeC : MasterNode := MasterNode.init testEnv 1 3 (some 2) (some 270)

/-- A concrete master tree holding the chain root→A→B→C. -/
def chainTree : MasterTree where
  nodes := [(0, rootW), (1, nodeA), (2, nodeB), (3, nodeC)]
  probability := [1]
  numScenarios := 1
  max_depth := none

/-- The state reached by the spec's integration test: from a fresh tree,
`integrate_buffer` with `[(0,H1,ROOT,90,10.0)]`, then with
`[(0,H1,ROOT,90,10.0),(0,H2,H1,90,5.0)]`. -/
def integrationTestTree (env : Env) (n : ℕ) (h1 h2 : ℤ) : MasterTree :=
  (((MasterTree.init env n).integrate_buffer env
      [⟨0, h1, env.rootHash, 90, 10⟩]).1.integrate_buffer env
    [⟨0, h1, env.rootHash, 90, 10⟩, ⟨0, h2, h1, 90, 5⟩]).1

/-- Observer: the root's (scenario 0, action 90) histogram of a tree. -/
def rootHist90 (env : Env) (t : MasterTree) : Option Hist :=
  (alookup env.rootHash t.nodes).map
    (fun root => (root.rewards.getD 0 []).getD (env.aIdx 90) (Hist.empty env))

/-- The concrete root with its children list populated (keys 1, 2). -/
def rootC : MasterNode := { rootW with children := [1, 2] }

/-- A second child of the root (arm 180) for best-child selection. -/
def nodeD : MasterNode := MasterNode.init testEnv 1 2 (some 0) (some 180)

/-- A concrete tree for best-child selection: root with children A and D. -/
def bestTree : MasterTree where
  nodes := [(0, rootC), (1, nodeA), (2, nodeD)]
  probability := [1]
  numScenarios := 1
  max_depth := none

/-- The (key, parent-reference) view of an arena: the only data
`get_children` reads. -/
def kparents (t : MasterTree) : List (ℤ × Option ℤ) :=
  t.nodes.map (fun q => (q.1, q.2.parentNode))

/-- The keys that one `get_children` pass appends to the children list of
the node at key `p`: the non-root entries whose parent reference is `p`,
in dictionary order. -/
def childKeysKP (env : Env) (p : ℤ) (kp : List (ℤ × Option ℤ)) : List ℤ :=
  (kp.filter (fun q => decide (¬ q.1 = env.rootHash))).filterMap
    (fun q => if q.2 = some p then some q.1 else none)

/-- `childKeysKP` read off a tree. -/
def childKeys (env : Env) (t : MasterTree) (p : ℤ) : List ℤ :=
  childKeysKP env p (kparents t)

/-- Append `ks` at the end of a node's children list. -/
def withChildren (ks : List ℤ) (n : MasterNode) : MasterNode :=
  { n with children := n.children ++ ks }

/-! ### Tree shapes

A `Shape` is the specification-side description of a tree whose children
lists have been correctly populated: a key together with the shapes of
its children, in children-list order.  `get_depth`'s breadth-first loop
is verified against an arena that realises a shape (`Fits`). -/

mutual

inductive Shape : Type where
  | node : ℤ → Forest → Shape

inductive Forest : Type where
  | nil : Forest
  | cons : Shape → Forest → Forest

end

/-- The key at the root of a shape. -/
def Shape.key : Shape → ℤ
  | .node k _ => k

mutual

/-- All keys of a shape, preorder. -/
def Shape.keys : Shape → List ℤ
  | .node k kids => k :: Forest.keysF kids

/-- All keys of a forest. -/
def Forest.keysF : Forest → List ℤ
  | .nil => []
  | .cons s ss => Shape.keys s ++ Forest.keysF ss

end

/-- The root keys of a forest (a node's children list). -/
def Forest.rootKeys : Forest → List ℤ
  | .nil => []
  | .cons s ss => s.key :: Forest.rootKeys ss

mutual

/-- The intended depth of every key of a shape whose root sits at depth
`d`: the relational reading of "root.depth = 0 and child.depth =
parent.depth + 1". -/
def Shape.assign : Shape → ℕ → List (ℤ × ℕ)
  | .node k kids, d => (k, d) :: Forest.assignF kids (d + 1)

/-- `Shape.assign` over a forest of siblings at one depth. -/
def Forest.assignF : Forest → ℕ → List (ℤ × ℕ)
  | .nil, _ => []
  | .cons s ss, d => Shape.assign s d ++ Forest.assignF ss d

end

mutual

/-- Number of nodes of a shape (the number of queue pops it costs the
breadth-first loop). -/
def Shape.size : Shape → ℕ
  | .node _ kids => 1 + Forest.sizeF kids

/-- Number of nodes of a forest. -/
def Forest.sizeF : Forest → ℕ
  | .nil => 0
  | .cons s ss => Shape.size s + Forest.sizeF ss

end

mutual

/-- The arena realises the shape: the node at the shape's key has parent
reference `parent`, its children list is exactly the shape's children
keys in order, and recursively so for the children.  This is
"`get_children()` already correct" for a tree whose nodes are reachable
from the root. -/
def Fits (ar : Arena) (parent : Option ℤ) : Shape → Prop
  | .node k kids => (∃ n, alookup k ar = some n ∧ n.parentNode = parent
      ∧ n.children = Forest.rootKeys kids) ∧ FitsF ar k kids

/-- `Fits` for every tree of a forest, all with parent `pk`. -/
def FitsF (ar : Arena) (pk : ℤ) : Forest → Prop
  | .nil => True
  | .cons s ss => Fits ar (some pk) s ∧ FitsF ar pk ss

end

/-- The pending part of the breadth-first queue, each shape paired with
the depth already written to its root. -/
def forestFrontier : Forest → ℕ → List (Shape × ℕ)
  | .nil, _ => []
  | .cons s ss, d => (s, d) :: forestFrontier ss d

/-- Keys of all shapes of a frontier. -/
def frontierKeys : List (Shape × ℕ) → List ℤ
  | [] => []
  | p :: ps => p.1.keys ++ frontierKeys ps

/-- Total size of a frontier. -/
def frontierSize : List (Shape × ℕ) → ℕ
  | [] => 0
  | p :: ps => p.1.size + frontierSize ps

/-- Intended depth assignment of a frontier. -/
def frontierAssign : List (Shape × ℕ) → List (ℤ × ℕ)
  | [] => []
  | p :: ps => p.1.assign p.2 ++ frontierAssign ps

/-- Observer: the depth stored at key `k`. -/
def depthOf (t : MasterTree) (k : ℤ) : Option (Option ℕ) :=
  (alookup k t.nodes).map MasterNode.depth

/-- The chain nodes with children lists correctly populated. -/
def rootD : MasterNode := { rootW with children := [1] }

/-- Chain node A with its children list populated. -/
def nodeAD : MasterNode := { nodeA with children := [2] }

/-- Chain node B with its children list populated. -/
def nodeBD : MasterNode := { nodeB with children := [3] }

/-- A concrete tree for `get_depth`: the chain with populated children. -/
def depthTree : MasterTree where
  nodes := [(0, rootD), (1, nodeAD), (2, nodeBD), (3, nodeC)]
  probability := [1]
  numScenarios := 1
  max_depth := none

/-- The shape of `depthTree`: the chain 0 → 1 → 2 → 3. -/
def chainShape : Shape :=
  .node 0 (.cons (.node 1 (.cons (.node 2 (.cons (.node 3 .nil) .nil)) .nil)) .nil)

/-! ## Basic lemmas about the arena and the list helpers -/

theorem alookup_amap (k k' : ℤ) (f : MasterNode → MasterNode) (ar : Arena) :
    alookup k (amap k' f ar)
      = if k' = k then (alookup k ar).map f else alookup k ar := by
  induction ar with
  | nil => simp [alookup, amap]
  | cons p ps ih =>
    by_cases h1 : p.1 = k'
    · subst h1
      by_cases h2 : p.1 = k
      · subst h2
        simp [alookup, amap, ih]
      · simp [alookup, amap, h2, ih]
    · by_cases h2 : p.1 = k
      · subst h2
        have h1' : ¬ k' = p.1 := fun e => h1 e.symm
        simp [alookup, amap, h1, h1', ih]
      · simp [alookup, amap, h1, h2, ih]

theorem alookup_append (k : ℤ) (ar br : Arena) :
    alookup k (ar ++ br)
      = match alookup k ar with
        | some v => some v
        | none => alookup k br := by
  induction ar with
  | nil => simp [alookup]
  | cons p ps ih =>
    by_cases h : p.1 = k <;> simp [alookup, h, ih]

theorem length_amap (k : ℤ) (f : MasterNode → MasterNode) (ar : Arena) :
    (amap k f ar).length = ar.length := by
  induction ar with
  | nil => rfl
  | cons p ps ih => simp [amap, ih]

theorem length_setAt {α : Type} (i : ℕ) (f : α → α) (l : List α) :
    (setAt i f l).length = l.length := by
  induction l generalizing i with
  | nil => cases i <;> rfl
  | cons x xs ih =>
    cases i with
    | zero => rfl
    | succ j => simp [setAt, ih]

theorem getD_setAt_self {α : Type} (i : ℕ) (f : α → α) (l : List α) (d : α)
    (h : i < l.length) : (setAt i f l).getD i d = f (l.getD i d) := by
  induction l generalizing i with
  | nil => simp at h
  | cons x xs ih =>
    cases i with
    | zero => rfl
    | succ j =>
      simp only [List.length_cons, Nat.succ_lt_succ_iff] at h
      simpa [setAt] using ih j h

theorem getD_setAt_ne {α : Type} (i j : ℕ) (f : α → α) (l : List α) (d : α)
    (h : j ≠ i) : (setAt i f l).getD j d = l.getD j d := by
  induction l generalizing i j with
  | nil => cases i <;> rfl
  | cons x xs ih =>
    cases i with
    | zero =>
      cases j with
      | zero => exact absurd rfl h
      | succ j' => rfl
    | succ i' =>
      cases j with
      | zero => rfl
      | succ j' => simpa [setAt] using ih i' j' (fun e => h (by simp [e]))

theorem nsum_cons (x : ℕ) (l : List ℕ) : nsum (x :: l) = x + nsum l := rfl

theorem nsum_setAt_inc (i : ℕ) (l : List ℕ) (h : i < l.length) :
    nsum (setAt i (· + 1) l) = nsum l + 1 := by
  induction l generalizing i with
  | nil => simp at h
  | cons x xs ih =>
    cases i with
    | zero => simp [setAt, nsum_cons]; ring
    | succ j =>
      simp only [List.length_cons, Nat.succ_lt_succ_iff] at h
      simp [setAt, nsum_cons, ih j h]; ring

theorem qsum_cons (x : ℚ) (l : List ℚ) : qsum (x :: l) = x + qsum l := rfl

theorem qsum_nonneg {l : List ℚ} (h : ∀ x ∈ l, 0 ≤ x) : 0 ≤ qsum l := by
  induction l with
  | nil => simp [qsum]
  | cons x xs ih =>
    rw [qsum_cons]
    exact add_nonneg (h x (by simp)) (ih (fun y hy => h y (by simp [hy])))

theorem Hist.length_add (env : Env) (r : ℚ) (hi : Hist) :
    (hi.add env r).h.length = hi.h.length := by
  simp [Hist.add, length_setAt]

theorem Hist.total_add (env : Env) (r : ℚ) (hi : Hist)
    (h : hi.h.length = env.nb) : (hi.add env r).total = hi.total + 1 := by
  have hb : env.bucket r < hi.h.length := h ▸ env.bucket_lt r
  simp [Hist.add, Hist.total, nsum_setAt_inc _ _ hb]

theorem Hist.get_mean_nonneg (env : Env) (hi : Hist)
    (hm : ∀ i, 0 ≤ env.means i) : 0 ≤ hi.get_mean env := by
  unfold Hist.get_mean
  split
  · exact le_refl 0
  · apply div_nonneg
    · apply qsum_nonneg
      intro x hx
      simp only [List.mem_map] at hx
      obtain ⟨i, _, rfl⟩ := hx
      exact mul_nonneg (by positivity) (hm i)
    · positivity

/-! ## Claims -/

/-- C4: during `get_uct` scoring, a scenario with zero parent observation
count (`num_parent`) or zero incoming-action count (`num_node`)
contributes 0; instrumenting the logarithm and the division of the
exploration term as partial operations that fail on a zero argument, the
scoring never fails — so neither is ever evaluated on a zero argument. -/
theorem C4_uct_zero_guard (env : Env) (parent node : MasterNode) (s : ℕ) :
    scenarioContributionChecked env parent node s
      = some (scenarioContribution env parent node s)
    ∧ ((numParent parent s = 0 ∨ numNode env parent node s = 0) →
        scenarioContribution env parent node s = 0) := by
  constructor
  · by_cases h : numParent parent s = 0 ∨ numNode env parent node s = 0
    · simp [scenarioContributionChecked, scenarioContribution, h]
    · push_neg at h
      simp [scenarioContributionChecked, scenarioContribution, h.1, h.2,
        safeLog, safeDivByCount]
  · intro h
    simp [scenarioContribution, h]

/-- Witness for C4 at a concrete input whose parent counts are zero. -/
theorem C4_uct_zero_guard_witness :
    scenarioContributionChecked testEnv rootW rootW 0
        = some (scenarioContribution testEnv rootW rootW 0)
      ∧ scenarioContribution testEnv rootW rootW 0 = 0 :=
  ⟨(C4_uct_zero_guard testEnv rootW rootW 0).1,
    (C4_uct_zero_guard testEnv rootW rootW 0).2 (Or.inl (by decide))⟩

/-- C5: a buffer update whose `parentHash` is not a key of the node set
and whose `newNodeHash` is unseen makes `integrate_buffer` abort with the
`KeyError` raised by the parent lookup, and the node set is returned
exactly as it was: no disconnected node is silently created. -/
theorem C5_orphan_update (env : Env) (t : MasterTree) (u : Update)
    (rest : List Update)
    (hchild : alookup u.newNodeHash t.nodes = none)
    (hparent : alookup u.parentHash t.nodes = none) :
    t.integrate_buffer env (u :: rest)
      = (t, some "KeyError: parentHash not in self.nodes") := by
  simp [MasterTree.integrate_buffer, MasterTree.integrate_update, hchild, hparent]

/-- Witness for C5: an orphan update against a freshly built tree. -/
theorem C5_orphan_update_witness :
    (MasterTree.init testEnv 1).integrate_buffer testEnv [⟨0, 5, 4, 90, 10⟩]
      = (MasterTree.init testEnv 1, some "KeyError: parentHash not in self.nodes") :=
  C5_orphan_update testEnv (MasterTree.init testEnv 1) ⟨0, 5, 4, 90, 10⟩ []
    (by decide) (by decide)

/-- When the node's parent resolves in the arena, the per-scenario loop
succeeds and returns the list of contributions. -/
theorem uctPerScenario_ok (env : Env) (t : MasterTree) (node parent : MasterNode)
    (pk : ℤ) (hp : node.parentNode = some pk)
    (hpar : alookup pk t.nodes = some parent) (l : List ℕ) :
    uctPerScenario env t node l
      = .ok (l.map (scenarioContribution env parent node)) := by
  induction l with
  | nil => rfl
  | cons s rest ih => simp [uctPerScenario, hp, hpar, ih]

/-- A null parent faults on the first iteration of a nonempty loop. -/
theorem uctPerScenario_err (env : Env) (t : MasterTree) (node : MasterNode)
    (hp : node.parentNode = none) (l : List ℕ) (hl : l ≠ []) :
    uctPerScenario env t node l
      = .error "AttributeError: NoneType has no attribute rewards" := by
  cases l with
  | nil => exact absurd rfl hl
  | cons s rest => simp [uctPerScenario, hp]

/-- C10: `get_uct` has an unstated non-root precondition.  The empty
action sequence hashes to the root's key; the root's parent reference is
null, and the scoring loop's body dereferences it and faults
(`AttributeError`) instead of returning a score — on a freshly
constructed tree with at least one scenario, and in general on any tree
for any worker node whose master counterpart has no parent and a
nonempty reward table.  The boundary case is also settled: with zero
scenarios the loop body never runs and the call returns the score
`np.dot([], []) = 0`. -/
theorem C10_get_uct_root_faults (env : Env) :
    (∀ n, 1 ≤ n → (MasterTree.init env n).get_uct env []
        = .error "AttributeError: NoneType has no attribute rewards")
    ∧ (MasterTree.init env 0).get_uct env [] = .ok 0
    ∧ ∀ (t : MasterTree) (origins : List ℤ) (node : MasterNode),
        alookup (env.hashT origins) t.nodes = some node →
        node.parentNode = none →
        node.rewards ≠ [] →
        t.get_uct env origins
          = .error "AttributeError: NoneType has no attribute rewards" := by
  refine ⟨?_, ?_, ?_⟩
  · intro n hn
    have hlook : alookup (env.hashT []) (MasterTree.init env n).nodes
        = some (MasterNode.init env n env.rootHash none none) := by
      simp [MasterTree.init, alookup, Env.rootHash]
    have hne : List.range
        (MasterNode.init env n env.rootHash none none).rewards.length ≠ [] := by
      simp only [MasterNode.init, List.length_replicate, ne_eq,
        List.range_eq_nil]
      omega
    have herr := uctPerScenario_err env (MasterTree.init env n)
      (MasterNode.init env n env.rootHash none none) rfl _ hne
    simp [MasterTree.get_uct, hlook, herr]
  · have hlook : alookup (env.hashT []) (MasterTree.init env 0).nodes
        = some (MasterNode.init env 0 env.rootHash none none) := by
      simp [MasterTree.init, alookup, Env.rootHash]
    simp [MasterTree.get_uct, hlook, MasterNode.init, uctPerScenario, dot, qsum]
  · intro t origins node hn hp hne
    have hne2 : List.range node.rewards.length ≠ [] := by
      simp only [ne_eq, List.range_eq_nil, List.length_eq_zero]
      exact hne
    have herr := uctPerScenario_err env t node hp _ hne2
    simp [MasterTree.get_uct, hn, herr]

/-- Witness for C10: the fault on a concrete fresh one-scenario tree,
via the first part of the theorem. -/
theorem C10_get_uct_root_faults_witness :
    (MasterTree.init testEnv 1).get_uct testEnv []
      = .error "AttributeError: NoneType has no attribute rewards" :=
  (C10_get_uct_root_faults testEnv).1 1 (by decide)

/-- The running maximum started at `0` computes the list maximum of a
list of nonnegative values. -/
theorem foldl_ifmax_eq_listMax (l : List ℚ) (h : ∀ x ∈ l, 0 ≤ x) :
    l.foldl (fun m v => if v > m then v else m) 0 = listMax l := by
  have hfun : (fun (m v : ℚ) => if v > m then v else m) = fun m v => max m v := by
    funext m v
    rcases le_or_lt v m with hle | hlt
    · simp [not_lt.2 hle, max_eq_left hle]
    · simp [hlt, max_eq_right (le_of_lt hlt)]
  rw [hfun]
  cases l with
  | nil => rfl
  | cons x xs =>
    have h0 : max 0 x = x := max_eq_right (h x (by simp))
    simp [listMax, List.foldl_cons, h0]

/-- The per-scenario loop body of `get_uct` computes the specification's
contribution, provided the histogram bucket centers are nonnegative (the
spec's "non-negative reward domain", under which the loop's running
maximum started at `0` is the true maximum over actions). -/
theorem scenarioContribution_eq_spec (env : Env) (parent node : MasterNode)
    (s : ℕ) (hm : ∀ i, 0 ≤ env.means i) :
    scenarioContribution env parent node s = specContribution env parent node s := by
  unfold scenarioContribution specContribution
  by_cases h : numParent parent s = 0 ∨ numNode env parent node s = 0
  · simp [h]
  · simp only [if_neg h]
    have hfold : ((node.rewards.getD s []).map (Hist.get_mean env)).foldl
        (fun m v => if v > m then v else m) 0
        = listMax ((node.rewards.getD s []).map (Hist.get_mean env)) := by
      apply foldl_ifmax_eq_listMax
      intro x hx
      simp only [List.mem_map] at hx
      obtain ⟨hi, _, rfl⟩ := hx
      exact Hist.get_mean_nonneg env hi hm
    rw [List.foldl_map] at hfold
    rw [hfold]

/-- C1: for a worker node present in the master tree (with a parent),
`get_uct` returns the dot product of the per-scenario contributions with
the probability vector, where a scenario's contribution is the spec's
formula (`max` of `get_mean` over actions plus
`C * sqrt(2*ln(num_parent)/num_node)`, zero when a count is zero); for a
worker node whose hash is absent, `get_uct` returns 0.  The nonnegative
bucket centers are the spec's nonnegative reward domain. -/
theorem C1_get_uct_formula (env : Env) :
    (∀ (t : MasterTree) (origins : List ℤ) (node parent : MasterNode) (pk : ℤ),
      (∀ i, 0 ≤ env.means i) →
      alookup (env.hashT origins) t.nodes = some node →
      node.parentNode = some pk →
      alookup pk t.nodes = some parent →
      t.get_uct env origins = .ok (dot ((List.range node.rewards.length).map
        (specContribution env parent node)) t.probability))
    ∧ ∀ (t : MasterTree) (origins : List ℤ),
        alookup (env.hashT origins) t.nodes = none →
        t.get_uct env origins = .ok 0 := by
  constructor
  · intro t origins node parent pk hm hn hp hpar
    have hfun : scenarioContribution env parent node
        = specContribution env parent node :=
      funext (fun s => scenarioContribution_eq_spec env parent node s hm)
    have hok := uctPerScenario_ok env t node parent pk hp hpar
      (List.range node.rewards.length)
    simp [MasterTree.get_uct, hn, hok, hfun]
  · intro t origins hmiss
    simp [MasterTree.get_uct, hmiss]

/-- Witness for C1: the formula evaluated on the concrete chain tree at
the worker node with action sequence `[0]` (hash 1, node A). -/
theorem C1_get_uct_formula_witness :
    chainTree.get_uct testEnv [0] = .ok (dot ((List.range nodeA.rewards.length).map
      (specContribution testEnv rootW nodeA)) chainTree.probability) :=
  (C1_get_uct_formula testEnv).1 chainTree [0] nodeA rootW 0
    (by intro i; by_cases h : i = 0 <;> simp [testEnv, h])
    (by decide) (by decide) (by decide)

/-! ## Field-preservation facts (reward updates never touch the tree
structure) and arena cardinality. -/

theorem ara_parentNode (env : Env) (s : ℕ) (a : ℤ) (r : ℚ) (n : MasterNode) :
    (n.add_reward_action env s a r).parentNode = n.parentNode := rfl

theorem ara_arm (env : Env) (s : ℕ) (a : ℤ) (r : ℚ) (n : MasterNode) :
    (n.add_reward_action env s a r).arm = n.arm := rfl

theorem ara_children (env : Env) (s : ℕ) (a : ℤ) (r : ℚ) (n : MasterNode) :
    (n.add_reward_action env s a r).children = n.children := rfl

theorem addr_parentNode (env : Env) (s : ℕ) (r : ℚ) (n : MasterNode) :
    (n.add_reward env s r).parentNode = n.parentNode := rfl

theorem addr_arm (env : Env) (s : ℕ) (r : ℚ) (n : MasterNode) :
    (n.add_reward env s r).arm = n.arm := rfl

theorem tara_nodes (env : Env) (t : MasterTree) (k : ℤ) (s : ℕ) (a : ℤ) (r : ℚ) :
    (t.addRewardAction env k s a r).nodes
      = amap k (MasterNode.add_reward_action env s a r) t.nodes := rfl

theorem taddr_nodes (env : Env) (t : MasterTree) (k : ℤ) (s : ℕ) (r : ℚ) :
    (t.addReward env k s r).nodes
      = amap k (MasterNode.add_reward env s r) t.nodes := rfl

theorem mem_keys_of_alookup {k : ℤ} {v : MasterNode} {ar : Arena}
    (h : alookup k ar = some v) : k ∈ ar.map Prod.fst := by
  induction ar with
  | nil => simp [alookup] at h
  | cons p ps ih =>
    by_cases hp : p.1 = k
    · simp [hp]
    · simp only [alookup, if_neg hp] at h
      simp [ih h]

theorem four_le_length {kr ka kb kc : ℤ} {ar : Arena} {r a b c : MasterNode}
    (hr : alookup kr ar = some r) (ha : alookup ka ar = some a)
    (hb : alookup kb ar = some b) (hc : alookup kc ar = some c)
    (hnd : [kr, ka, kb, kc].Nodup) : 4 ≤ ar.length := by
  have hsub : [kr, ka, kb, kc] ⊆ ar.map Prod.fst := by
    intro x hx
    simp only [List.mem_cons, List.not_mem_nil, or_false] at hx
    rcases hx with rfl | rfl | rfl | rfl
    exacts [mem_keys_of_alookup hr, mem_keys_of_alookup ha,
      mem_keys_of_alookup hb, mem_keys_of_alookup hc]
  have hle := (List.subperm_of_subset hnd hsub).length_le
  simpa using hle

/-- C2 counterexample: on the concrete chain root→A→B→C, a single backup
from C with reward 7 on scenario 0 ALSO adds one count to the root's
(scenario 0, arm-of-A) histogram — the root's histogram changes, so it is
false that no histogram of a node other than B and A changes. -/
theorem C2_backup_counterexample :
    alookup 0 (chainTree.backup testEnv 3 0 7).nodes
        = some (rootW.add_reward_action testEnv 0 90 7)
      ∧ rootW.add_reward_action testEnv 0 90 7 ≠ rootW := by decide

/-- C2 (amended): `backup(scenario, reward)` from a node walks the parent
chain to the root, recording the reward once at every ancestor in its
(scenario, incoming-arm-of-the-step) histogram: on a chain root→A→B→C, a
single backup from C applies exactly one `add_reward_action` (one new
count of the reward) at B (arm of C), at A (arm of B), AND at the root
(arm of A), and every other node of the tree — C included — is left
unchanged. -/
theorem C2_backup_chain (env : Env) (t : MasterTree)
    (kr ka kb kc : ℤ) (r a b c : MasterNode) (aa ab ac : ℤ) (s : ℕ) (rv : ℚ)
    (hr : alookup kr t.nodes = some r) (hrp : r.parentNode = none)
    (ha : alookup ka t.nodes = some a) (hap : a.parentNode = some kr)
    (haa : a.arm = some aa)
    (hb : alookup kb t.nodes = some b) (hbp : b.parentNode = some ka)
    (hba : b.arm = some ab)
    (hc : alookup kc t.nodes = some c) (hcp : c.parentNode = some kb)
    (hca : c.arm = some ac)
    (hnd : [kr, ka, kb, kc].Nodup) :
    alookup kb (t.backup env kc s rv).nodes
        = some (b.add_reward_action env s ac rv)
    ∧ alookup ka (t.backup env kc s rv).nodes
        = some (a.add_reward_action env s ab rv)
    ∧ alookup kr (t.backup env kc s rv).nodes
        = some (r.add_reward_action env s aa rv)
    ∧ alookup kc (t.backup env kc s rv).nodes = some c
    ∧ ∀ k, k ≠ kr → k ≠ ka → k ≠ kb →
        alookup k (t.backup env kc s rv).nodes = alookup k t.nodes := by
  simp only [List.nodup_cons, List.mem_cons, List.not_mem_nil, or_false,
    not_or, List.nodup_nil, and_true] at hnd
  obtain ⟨⟨hrka, hrkb, hrkc⟩, ⟨hakb, hakc⟩, hbkc, -⟩ := hnd
  have hlen : 4 ≤ t.nodes.length := four_le_length hr ha hb hc
    (by simp [List.nodup_cons, hrka, hrkb, hrkc, hakb, hakc, hbkc])
  obtain ⟨m, hm⟩ : ∃ m, t.nodes.length = m + 4 :=
    ⟨t.nodes.length - 4, by omega⟩
  -- lookups in the successively mutated arenas along the walk
  have l1b : alookup kb (amap kb (MasterNode.add_reward_action env s ac rv) t.nodes)
      = some (b.add_reward_action env s ac rv) := by
    rw [alookup_amap, if_pos rfl, hb]
    rfl
  have l2a : alookup ka (amap ka (MasterNode.add_reward_action env s ab rv)
      (amap kb (MasterNode.add_reward_action env s ac rv) t.nodes))
      = some (a.add_reward_action env s ab rv) := by
    rw [alookup_amap, if_pos rfl, alookup_amap, if_neg (Ne.symm hakb), ha]
    rfl
  have l2r : alookup kr (amap ka (MasterNode.add_reward_action env s ab rv)
      (amap kb (MasterNode.add_reward_action env s ac rv) t.nodes))
      = some r := by
    rw [alookup_amap, if_neg (Ne.symm hrka), alookup_amap,
      if_neg (Ne.symm hrkb), hr]
  have l3r : alookup kr (amap kr (MasterNode.add_reward_action env s aa rv)
      (amap ka (MasterNode.add_reward_action env s ab rv)
        (amap kb (MasterNode.add_reward_action env s ac rv) t.nodes)))
      = some (r.add_reward_action env s aa rv) := by
    rw [alookup_amap, if_pos rfl, l2r]
    rfl
  -- the backup walk evaluates to the three mutations
  have key : t.backup env kc s rv
      = ((t.addRewardAction env kb s ac rv).addRewardAction env ka s ab
          rv).addRewardAction env kr s aa rv := by
    unfold MasterTree.backup
    rw [hm, show m + 4 = (m + 3) + 1 from rfl]
    simp only [MasterTree.backupFuel, tara_nodes, hc, hcp, hca, l1b,
      ara_parentNode, ara_arm, hbp, hba, l2a, hap, haa, l3r, hrp]
  rw [key]
  simp only [tara_nodes]
  refine ⟨?_, ?_, l3r, ?_, ?_⟩
  · rw [alookup_amap, if_neg (show ¬kr = kb from hrkb), alookup_amap,
      if_neg (show ¬ka = kb from hakb), l1b]
  · rw [alookup_amap, if_neg (show ¬kr = ka from hrka), l2a]
  · rw [alookup_amap, if_neg (show ¬kr = kc from hrkc), alookup_amap,
      if_neg (show ¬ka = kc from hakc), alookup_amap,
      if_neg (show ¬kb = kc from hbkc), hc]
  · intro k hkr hka hkb
    rw [alookup_amap, if_neg (Ne.symm hkr), alookup_amap, if_neg (Ne.symm hka),
      alookup_amap, if_neg (Ne.symm hkb)]

theorem getD_replicate {α : Type} (n i : ℕ) (a d : α) (h : i < n) :
    (List.replicate n a).getD i d = a := by
  induction n generalizing i with
  | zero => omega
  | succ m ih =>
    cases i with
    | zero => rfl
    | succ j =>
      simp only [List.replicate_succ]
      exact ih j (by omega)

theorem nsum_replicate_zero (n : ℕ) : nsum (List.replicate n 0) = 0 := by
  induction n with
  | zero => rfl
  | succ m ih => simp [List.replicate_succ, nsum_cons, ih]

theorem Hist.total_empty (env : Env) : (Hist.empty env).total = 0 := by
  simp [Hist.empty, Hist.total, nsum_replicate_zero]

theorem Hist.length_empty (env : Env) : (Hist.empty env).h.length = env.nb := by
  simp [Hist.empty]

theorem ara_rewards_length (env : Env) (s : ℕ) (a : ℤ) (r : ℚ) (n : MasterNode) :
    (n.add_reward_action env s a r).rewards.length = n.rewards.length := by
  simp [MasterNode.add_reward_action, length_setAt]

theorem ara_row_length (env : Env) (a : ℤ) (r : ℚ) (n : MasterNode)
    (h0 : 0 < n.rewards.length) :
    ((n.add_reward_action env 0 a r).rewards.getD 0 []).length
      = (n.rewards.getD 0 []).length := by
  simp only [MasterNode.add_reward_action]
  rw [getD_setAt_self 0 _ _ _ h0, length_setAt]

theorem ara_cell (env : Env) (a : ℤ) (r : ℚ) (n : MasterNode)
    (h0 : 0 < n.rewards.length)
    (hj : env.aIdx a < (n.rewards.getD 0 []).length) :
    ((n.add_reward_action env 0 a r).rewards.getD 0 []).getD (env.aIdx a)
        (Hist.empty env)
      = Hist.add env r ((n.rewards.getD 0 []).getD (env.aIdx a) (Hist.empty env)) := by
  simp only [MasterNode.add_reward_action]
  rw [getD_setAt_self 0 _ _ _ h0, getD_setAt_self _ _ _ _ hj]

/-- C3: the spec's two-call integration test.  The resulting node set has
keys exactly `[ROOT, H1, H2]` (two non-root nodes), and the root's
(scenario 0, action 90) histogram is exactly three recorded counts — two
observations of 10.0 and one backed-up observation of 5.0. -/
theorem C3_two_buffer_integration (env : Env) (n : ℕ) (h1 h2 : ℤ)
    (hn : 1 ≤ n) (hact : (90 : ℤ) ∈ env.ACTIONS)
    (h1r : h1 ≠ env.rootHash) (h2r : h2 ≠ env.rootHash) (h12 : h1 ≠ h2) :
    (integrationTestTree env n h1 h2).nodes.map Prod.fst = [env.rootHash, h1, h2]
    ∧ rootHist90 env (integrationTestTree env n h1 h2)
        = some (Hist.add env 5 (Hist.add env 10 (Hist.add env 10 (Hist.empty env))))
    ∧ (rootHist90 env (integrationTestTree env n h1 h2)).map Hist.total
        = some 3 := by
  have hR1 : ¬ env.rootHash = h1 := fun e => h1r e.symm
  have hR2 : ¬ env.rootHash = h2 := fun e => h2r e.symm
  have h21 : ¬ h2 = h1 := fun e => h12 e.symm
  have hj : env.aIdx 90 < env.ACTIONS.length := List.indexOf_lt_length.mpr hact
  -- evaluate the two buffer integrations to an explicit three-entry arena
  have hnodes : (integrationTestTree env n h1 h2).nodes
      = [(env.rootHash,
            ((((MasterNode.init env n env.rootHash none none).add_reward_action
              env 0 90 10).add_reward_action env 0 90 10).add_reward_action
              env 0 90 5)),
         (h1,
            (((MasterNode.init env n h1 (some env.rootHash)
              (some 90)).add_reward env 0 10).add_reward env 0
              10).add_reward_action env 0 90 5),
         (h2,
            (MasterNode.init env n h2 (some h1) (some 90)).add_reward env 0 5)] := by
    simp [integrationTestTree, MasterTree.integrate_buffer,
      MasterTree.integrate_update, MasterTree.init, MasterTree.addReward,
      MasterTree.addRewardAction, MasterTree.backup, MasterTree.backupFuel,
      MasterNode.init, MasterNode.add_reward, MasterNode.add_reward_action,
      alookup, amap, hR1, hR2, h21, h12, h1r, h2r]
  have hlenR : 0 < (MasterNode.init env n env.rootHash none none).rewards.length := by
    simp only [MasterNode.init, List.length_replicate]
    omega
  have hrowR : ((MasterNode.init env n env.rootHash none
      none).rewards.getD 0 []).length = env.ACTIONS.length := by
    simp only [MasterNode.init]
    rw [getD_replicate _ _ _ _ (show (0:ℕ) < n by omega)]
    simp
  have hcell0 : (((MasterNode.init env n env.rootHash
      none none).rewards.getD 0 []).getD (env.aIdx 90) (Hist.empty env))
      = Hist.empty env := by
    simp only [MasterNode.init]
    rw [getD_replicate _ _ _ _ (show (0:ℕ) < n by omega),
      getD_replicate _ _ _ _ hj]
  have h0R1 : 0 < ((MasterNode.init env n env.rootHash none
      none).add_reward_action env 0 90 10).rewards.length := by
    simpa [ara_rewards_length] using hlenR
  have h0R2 : 0 < (((MasterNode.init env n env.rootHash none
      none).add_reward_action env 0 90 10).add_reward_action env 0 90
      10).rewards.length := by
    simpa [ara_rewards_length] using hlenR
  have hjR1 : env.aIdx 90 < ((((MasterNode.init env n env.rootHash none
      none).add_reward_action env 0 90 10)).rewards.getD 0 []).length := by
    rw [ara_row_length _ _ _ _ hlenR, hrowR]
    exact hj
  have hjR2 : env.aIdx 90 < ((((MasterNode.init env n env.rootHash none
      none).add_reward_action env 0 90 10).add_reward_action env 0 90
      10).rewards.getD 0 []).length := by
    rw [ara_row_length _ _ _ _ h0R1, ara_row_length _ _ _ _ hlenR, hrowR]
    exact hj
  have hroot : rootHist90 env (integrationTestTree env n h1 h2)
      = some (Hist.add env 5 (Hist.add env 10 (Hist.add env 10 (Hist.empty env)))) := by
    rw [rootHist90, hnodes]
    simp only [alookup, if_true, eq_self_iff_true, Option.map_some']
    rw [ara_cell env 90 5 _ h0R2 hjR2, ara_cell env 90 10 _ h0R1 hjR1,
      ara_cell env 90 10 _ hlenR (by rw [hrowR]; exact hj), hcell0]
  refine ⟨by simp [hnodes], hroot, ?_⟩
  rw [hroot, Option.map_some']
  congr 1
  rw [Hist.total_add env _ _ (by
      rw [Hist.length_add, Hist.length_add, Hist.length_empty]),
    Hist.total_add env _ _ (by rw [Hist.length_add, Hist.length_empty]),
    Hist.total_add env _ _ (Hist.length_empty env), Hist.total_empty]

/-- Witness for C3 with one scenario and hashes `H1 = 10`, `H2 = 20`. -/
theorem C3_two_buffer_integration_witness :
    (integrationTestTree testEnv 1 10 20).nodes.map Prod.fst
        = [testEnv.rootHash, 10, 20]
    ∧ rootHist90 testEnv (integrationTestTree testEnv 1 10 20)
        = some (Hist.add testEnv 5 (Hist.add testEnv 10
            (Hist.add testEnv 10 (Hist.empty testEnv))))
    ∧ (rootHist90 testEnv (integrationTestTree testEnv 1 10 20)).map Hist.total
        = some 3 :=
  C3_two_buffer_integration testEnv 1 10 20 (by decide) (by decide)
    (by decide) (by decide) (by decide)

/-- Witness for C2 (amended) on the concrete chain tree. -/
theorem C2_backup_chain_witness :
    alookup 2 (chainTree.backup testEnv 3 0 7).nodes
        = some (nodeB.add_reward_action testEnv 0 270 7)
    ∧ alookup 1 (chainTree.backup testEnv 3 0 7).nodes
        = some (nodeA.add_reward_action testEnv 0 180 7)
    ∧ alookup 0 (chainTree.backup testEnv 3 0 7).nodes
        = some (rootW.add_reward_action testEnv 0 90 7)
    ∧ alookup 3 (chainTree.backup testEnv 3 0 7).nodes = some nodeC
    ∧ alookup 5 (chainTree.backup testEnv 3 0 7).nodes
        = alookup 5 chainTree.nodes := by
  have h := C2_backup_chain testEnv chainTree 0 1 2 3 rootW nodeA nodeB nodeC
    90 180 270 0 7 (by decide) (by decide) (by decide) (by decide) (by decide)
    (by decide) (by decide) (by decide) (by decide) (by decide) (by decide)
    (by decide)
  exact ⟨h.1, h.2.1, h.2.2.1, h.2.2.2.1,
    h.2.2.2.2 5 (by decide) (by decide) (by decide)⟩

/-! ## Lemmas about `listMax` and the best-child fold -/

theorem init_le_foldl_max (l : List ℚ) (a : ℚ) : a ≤ l.foldl max a := by
  induction l generalizing a with
  | nil => simp
  | cons x xs ih => exact le_trans (le_max_left a x) (ih (max a x))

theorem mem_le_foldl_max (l : List ℚ) (a : ℚ) {x : ℚ} (hx : x ∈ l) :
    x ≤ l.foldl max a := by
  induction l generalizing a with
  | nil => simp at hx
  | cons y ys ih =>
    rcases List.mem_cons.mp hx with rfl | h
    · exact le_trans (le_max_right a x) (init_le_foldl_max ys (max a x))
    · exact ih (max a y) h

theorem le_listMax {l : List ℚ} {x : ℚ} (hx : x ∈ l) : x ≤ listMax l := by
  cases l with
  | nil => simp at hx
  | cons y ys =>
    rcases List.mem_cons.mp hx with rfl | h
    · exact init_le_foldl_max ys x
    · exact mem_le_foldl_max ys y h

theorem dot_nonneg : ∀ (xs ys : List ℚ), (∀ x ∈ xs, 0 ≤ x) →
    (∀ y ∈ ys, 0 ≤ y) → 0 ≤ dot xs ys := by
  intro xs
  induction xs with
  | nil => intro ys _ _; simp [dot, qsum]
  | cons x xs ih =>
    intro ys hx hy
    cases ys with
    | nil => simp [dot, qsum]
    | cons y ys =>
      simp only [dot, List.zipWith_cons_cons, qsum_cons]
      exact add_nonneg (mul_nonneg (hx x (by simp)) (hy y (by simp)))
        (ih ys (fun a ha => hx a (by simp [ha])) (fun b hb => hy b (by simp [hb])))

theorem rewardPerAction_nonneg (env : Env) (t : MasterTree)
    (ids : Option ℕ) (child : MasterNode) (j : ℕ)
    (hm : ∀ i, 0 ≤ env.means i) (hp : ∀ q ∈ t.probability, 0 ≤ q) :
    0 ≤ rewardPerAction env t ids child j := by
  unfold rewardPerAction
  cases ids with
  | none =>
    apply dot_nonneg
    · intro x hx
      simp only [List.mem_map] at hx
      obtain ⟨i, _, rfl⟩ := hx
      exact Hist.get_mean_nonneg env _ hm
    · exact hp
  | some i => exact Hist.get_mean_nonneg env _ hm

theorem candReward_nonneg (env : Env) (t : MasterTree) (ids : Option ℕ)
    (child : MasterNode) (hm : ∀ i, 0 ≤ env.means i)
    (hp : ∀ q ∈ t.probability, 0 ≤ q) (hA : env.ACTIONS ≠ []) :
    0 ≤ candReward env t ids child := by
  have hL : 0 < env.ACTIONS.length := List.length_pos.mpr hA
  have hmem : rewardPerAction env t ids child 0
      ∈ (List.range env.ACTIONS.length).map (rewardPerAction env t ids child) :=
    List.mem_map.mpr ⟨0, by simp [List.mem_range, hL], rfl⟩
  exact le_trans (rewardPerAction_nonneg env t ids child 0 hm hp)
    (le_listMax hmem)

theorem bestfold_skip (env : Env) (t : MasterTree) (ids : Option ℕ)
    (cs : List ℤ) (st : ℚ × Option ℤ × Option ℤ)
    (h : ∀ ck ∈ cs, ∀ c, alookup ck t.nodes = some c →
      ¬ candReward env t ids c > st.1) :
    cs.foldl (bestChildStep env t ids) st = st := by
  induction cs with
  | nil => rfl
  | cons ck cs ih =>
    have hstep : bestChildStep env t ids st ck = st := by
      unfold bestChildStep
      cases hl : alookup ck t.nodes with
      | none => rfl
      | some c => simp [h ck (by simp) c hl]
    rw [List.foldl_cons, hstep]
    exact ih (fun k hk c hl => h k (by simp [hk]) c hl)

theorem bestfold_fst_lt (env : Env) (t : MasterTree) (ids : Option ℕ)
    (cs : List ℤ) (st : ℚ × Option ℤ × Option ℤ) (M : ℚ)
    (hst : st.1 < M)
    (h : ∀ ck ∈ cs, ∀ c, alookup ck t.nodes = some c →
      candReward env t ids c < M) :
    (cs.foldl (bestChildStep env t ids) st).1 < M := by
  induction cs generalizing st with
  | nil => exact hst
  | cons ck cs ih =>
    rw [List.foldl_cons]
    apply ih
    · unfold bestChildStep
      cases hl : alookup ck t.nodes with
      | none => exact hst
      | some c =>
        by_cases hgt : candReward env t ids c > st.1
        · simpa [hgt] using h ck (by simp) c hl
        · simpa [hgt] using hst
    · intro k hk c hl
      exact h k (by simp [hk]) c hl

theorem bestfold_some (env : Env) (t : MasterTree) (ids : Option ℕ)
    (cs : List ℤ) (st : ℚ × Option ℤ × Option ℤ)
    (hst : st.2.1.isSome ∧ st.2.2.isSome)
    (harm : ∀ k ∈ cs, ∀ c, alookup k t.nodes = some c → c.arm.isSome) :
    (cs.foldl (bestChildStep env t ids) st).2.1.isSome
      ∧ (cs.foldl (bestChildStep env t ids) st).2.2.isSome := by
  induction cs generalizing st with
  | nil => exact hst
  | cons ck cs ih =>
    rw [List.foldl_cons]
    apply ih
    · unfold bestChildStep
      cases hl : alookup ck t.nodes with
      | none => exact hst
      | some c =>
        by_cases hgt : candReward env t ids c > st.1
        · simpa [hgt] using harm ck (by simp) c hl
        · simpa [hgt] using hst
    · intro k hk c hl
      exact harm k (by simp [hk]) c hl

/-- C6: `get_best_child` keeps the strict maximum: it returns (the key
of) the first child in insertion order whose candidate reward attains the
maximum — a later child with merely equal reward never replaces the
current best.  The children list is split as `pre ++ (ck, c) :: post`
with every candidate before `c` strictly smaller and every one after at
most equal (holds in particular for exact ties). -/
theorem C6_best_child_tie (env : Env) (t : MasterTree) (node : MasterNode)
    (ids : Option ℕ) (pre post : List (ℤ × MasterNode)) (ck : ℤ)
    (c : MasterNode)
    (hch : node.children = (pre ++ (ck, c) :: post).map Prod.fst)
    (hres : ∀ p ∈ pre ++ (ck, c) :: post, alookup p.1 t.nodes = some p.2)
    (hpre : ∀ p ∈ pre, candReward env t ids p.2 < candReward env t ids c)
    (hpost : ∀ p ∈ post, candReward env t ids p.2 ≤ candReward env t ids c)
    (hgt : -1 < candReward env t ids c) :
    t.get_best_child env node ids = (some ck, c.arm) := by
  unfold MasterTree.get_best_child
  rw [hch, List.map_append, List.map_cons, List.foldl_append, List.foldl_cons]
  have h1 : ((pre.map Prod.fst).foldl (bestChildStep env t ids)
      (-1, none, none)).1 < candReward env t ids c := by
    apply bestfold_fst_lt env t ids _ _ _ hgt
    intro k hk c' hl
    obtain ⟨p, hp, rfl⟩ := List.mem_map.mp hk
    have hres' := hres p (List.mem_append_left _ hp)
    rw [hres'] at hl
    injection hl with hl
    rw [← hl]
    exact hpre p hp
  have hlc : alookup ck t.nodes = some c :=
    hres (ck, c) (List.mem_append_right _ (List.mem_cons_self _ _))
  have hstep : bestChildStep env t ids
      ((pre.map Prod.fst).foldl (bestChildStep env t ids) (-1, none, none)) ck
      = (candReward env t ids c, some ck, c.arm) := by
    unfold bestChildStep
    rw [hlc]
    exact if_pos h1
  rw [hstep, bestfold_skip env t ids _ _ ?_]
  intro k hk c' hl
  obtain ⟨p, hp, rfl⟩ := List.mem_map.mp hk
  have hres' := hres p (List.mem_append_right _ (List.mem_cons_of_mem _ hp))
  rw [hres'] at hl
  injection hl with hl
  rw [← hl]
  exact not_lt.mpr (hpost p hp)

/-- Witness for C6: a two-child tie (both candidates 0) on the concrete
tree; the first child (key 1, node A) is returned. -/
theorem C6_best_child_tie_witness :
    bestTree.get_best_child testEnv rootC (some 0) = (some 1, nodeA.arm) :=
  C6_best_child_tie testEnv bestTree rootC (some 0) [] [(2, nodeD)] 1 nodeA
    (by decide) (by decide) (by decide) (by decide) (by decide)

/-- C7: `get_best_child` returns the null pair on a childless node; and
with nonnegative bucket centers and probabilities (the spec's reward
domain), a nonempty ordered action set, and resolvable, armed children
(all true of every tree the API builds), a node with children never
yields a null component. -/
theorem C7_best_child_null_iff (env : Env) (t : MasterTree)
    (node : MasterNode) (ids : Option ℕ) :
    (node.children = [] → t.get_best_child env node ids = (none, none))
    ∧ ((∀ i, 0 ≤ env.means i) → (∀ q ∈ t.probability, 0 ≤ q) →
        env.ACTIONS ≠ [] →
        (∀ k ∈ node.children, ∃ c, alookup k t.nodes = some c ∧ c.arm.isSome) →
        node.children ≠ [] →
        (t.get_best_child env node ids).1 ≠ none
          ∧ (t.get_best_child env node ids).2 ≠ none) := by
  constructor
  · intro h
    unfold MasterTree.get_best_child
    rw [h]
    rfl
  · intro hm hp hA hres hne
    obtain ⟨k0, rest, hch⟩ : ∃ k0 rest, node.children = k0 :: rest := by
      cases hcs : node.children with
      | nil => exact absurd hcs hne
      | cons a l => exact ⟨a, l, rfl⟩
    obtain ⟨c0, hl0, ha0⟩ := hres k0 (by rw [hch]; exact List.mem_cons_self _ _)
    have hstep : bestChildStep env t ids (-1, none, none) k0
        = (candReward env t ids c0, some k0, c0.arm) := by
      unfold bestChildStep
      rw [hl0]
      have : (-1 : ℚ) < candReward env t ids c0 :=
        lt_of_lt_of_le (by norm_num) (candReward_nonneg env t ids c0 hm hp hA)
      simp [this]
    have hsome := bestfold_some env t ids rest
      (candReward env t ids c0, some k0, c0.arm) (by simp [ha0])
      (fun k hk c hl => by
        obtain ⟨c', hl', ha'⟩ := hres k (by rw [hch]; exact List.mem_cons_of_mem _ hk)
        rw [hl'] at hl
        injection hl with hl
        rw [hl] at ha'
        exact ha')
    unfold MasterTree.get_best_child
    rw [hch, List.foldl_cons, hstep]
    exact ⟨Option.isSome_iff_ne_none.mp hsome.1,
      Option.isSome_iff_ne_none.mp hsome.2⟩

/-- Witness for C7, both directions on concrete trees: the childless
node A yields the null pair; the two-child root yields non-null
components. -/
theorem C7_best_child_null_iff_witness :
    bestTree.get_best_child testEnv nodeA (some 0) = (none, none)
    ∧ (bestTree.get_best_child testEnv rootC (some 0)).1 ≠ none
    ∧ (bestTree.get_best_child testEnv rootC (some 0)).2 ≠ none := by
  refine ⟨(C7_best_child_null_iff testEnv bestTree nodeA (some 0)).1 (by decide), ?_⟩
  exact (C7_best_child_null_iff testEnv bestTree rootC (some 0)).2
    (by intro i; by_cases h : i = 0 <;> simp [testEnv, h])
    (by decide) (by decide)
    (by
      intro k hk
      have hk' : k = 1 ∨ k = 2 := by
        simpa [rootC, rootW, MasterNode.init] using hk
      rcases hk' with rfl | rfl
      · exact ⟨nodeA, by decide, by decide⟩
      · exact ⟨nodeD, by decide, by decide⟩)
    (by decide)

/-! ## Lemmas about `get_children` -/

theorem mem_of_alookup {k : ℤ} {v : MasterNode} {ar : Arena}
    (h : alookup k ar = some v) : (k, v) ∈ ar := by
  induction ar with
  | nil => simp [alookup] at h
  | cons p ps ih =>
    by_cases hp : p.1 = k
    · rw [alookup, if_pos hp] at h
      injection h with h
      have hkv : (k, v) = p := by
        rw [← hp, ← h]
      rw [hkv]
      exact List.mem_cons_self _ _
    · rw [alookup, if_neg hp] at h
      exact List.mem_cons_of_mem _ (ih h)

theorem amap_kparents (k : ℤ) (f : MasterNode → MasterNode)
    (hf : ∀ n, (f n).parentNode = n.parentNode) (ar : Arena) :
    (amap k f ar).map (fun q => (q.1, q.2.parentNode))
      = ar.map (fun q => (q.1, q.2.parentNode)) := by
  induction ar with
  | nil => rfl
  | cons p ps ih =>
    by_cases hp : p.1 = k <;> simp [amap, hp, hf, ih]

theorem appendChild_kparents (ck : ℤ) (pk : Option ℤ) (ar : Arena) :
    (appendChild ck pk ar).map (fun q => (q.1, q.2.parentNode))
      = ar.map (fun q => (q.1, q.2.parentNode)) := by
  cases pk with
  | none => rfl
  | some p =>
    exact amap_kparents p (fun n => { n with children := n.children ++ [ck] })
      (fun n => rfl) ar

theorem foldl_appendChild_kparents (L : List (ℤ × MasterNode)) (ar : Arena) :
    (L.foldl (fun a q => appendChild q.1 q.2.parentNode a) ar).map
        (fun q => (q.1, q.2.parentNode))
      = ar.map (fun q => (q.1, q.2.parentNode)) := by
  induction L generalizing ar with
  | nil => rfl
  | cons q L ih =>
    rw [List.foldl_cons, ih, appendChild_kparents]

theorem foldl_appendChild_alookup (L : List (ℤ × MasterNode)) (ar : Arena)
    (p : ℤ) :
    alookup p (L.foldl (fun a q => appendChild q.1 q.2.parentNode a) ar)
      = (alookup p ar).map (withChildren (L.filterMap (fun q =>
          if q.2.parentNode = some p then some q.1 else none))) := by
  induction L generalizing ar with
  | nil =>
    cases h : alookup p ar with
    | none => simp [h]
    | some n => cases n; simp [h, withChildren]
  | cons q L ih =>
    rw [List.foldl_cons, ih]
    cases hq : q.2.parentNode with
    | none =>
      have hfm : List.filterMap
          (fun q => if q.2.parentNode = some p then some q.1 else none) (q :: L)
          = List.filterMap
            (fun q => if q.2.parentNode = some p then some q.1 else none) L := by
        rw [List.filterMap_cons]
        simp [hq]
      rw [hfm]
      have har : appendChild q.1 none ar = ar := rfl
      rw [har]
    | some pp =>
      by_cases hpp : pp = p
      · subst hpp
        have hfm : List.filterMap
            (fun q => if q.2.parentNode = some pp then some q.1 else none) (q :: L)
            = q.1 :: List.filterMap
              (fun q => if q.2.parentNode = some pp then some q.1 else none) L := by
          rw [List.filterMap_cons]
          simp [hq]
        rw [hfm]
        have har : appendChild q.1 (some pp) ar
            = amap pp (fun n => { n with children := n.children ++ [q.1] }) ar := rfl
        rw [har, alookup_amap, if_pos rfl]
        cases h : alookup pp ar with
        | none => rfl
        | some n =>
          simp only [Option.map_some']
          cases n
          simp [withChildren]
      · have hfm : List.filterMap
            (fun q => if q.2.parentNode = some p then some q.1 else none) (q :: L)
            = List.filterMap
              (fun q => if q.2.parentNode = some p then some q.1 else none) L := by
          rw [List.filterMap_cons]
          simp [hq, hpp]
        rw [hfm]
        have har : appendChild q.1 (some pp) ar
            = amap pp (fun n => { n with children := n.children ++ [q.1] }) ar := rfl
        rw [har, alookup_amap, if_neg hpp]

theorem filterMap_filter_eq_childKeys (env : Env) (t : MasterTree) (p : ℤ) :
    (t.nodes.filter (fun q => decide (¬ q.1 = env.rootHash))).filterMap
        (fun q => if q.2.parentNode = some p then some q.1 else none)
      = childKeys env t p := by
  unfold childKeys childKeysKP kparents
  rw [List.filter_map, List.filterMap_map]
  rfl

theorem get_children_alookup (env : Env) (t : MasterTree) (p : ℤ) :
    alookup p (t.get_children env).nodes
      = (alookup p t.nodes).map (withChildren (childKeys env t p)) := by
  show alookup p ((t.nodes.filter (fun q => decide (¬ q.1 = env.rootHash))).foldl
      (fun ar q => appendChild q.1 q.2.parentNode ar) t.nodes)
    = _
  rw [foldl_appendChild_alookup, filterMap_filter_eq_childKeys]

theorem kparents_get_children (env : Env) (t : MasterTree) :
    kparents (t.get_children env) = kparents t := by
  show ((t.nodes.filter (fun q => decide (¬ q.1 = env.rootHash))).foldl
      (fun ar q => appendChild q.1 q.2.parentNode ar) t.nodes).map
        (fun q => (q.1, q.2.parentNode))
    = _
  rw [foldl_appendChild_kparents]
  rfl

theorem mem_childKeysKP {env : Env} {p x : ℤ} {kp : List (ℤ × Option ℤ)}
    (h : x ∈ childKeysKP env p kp) : x ∈ kp.map Prod.fst := by
  unfold childKeysKP at h
  obtain ⟨q, hq, hx⟩ := List.mem_filterMap.mp h
  have hq' := List.mem_of_mem_filter hq
  by_cases hc : q.2 = some p
  · rw [if_pos hc] at hx
    injection hx with hx
    subst hx
    exact List.mem_map.mpr ⟨q, hq', rfl⟩
  · rw [if_neg hc] at hx
    cases hx

theorem count_childKeysKP_zero {env : Env} {p k : ℤ} {kp : List (ℤ × Option ℤ)}
    (h : k ∉ kp.map Prod.fst) : List.count k (childKeysKP env p kp) = 0 :=
  List.count_eq_zero.mpr (fun hmem => h (mem_childKeysKP hmem))

theorem count_childKeysKP_one (env : Env) (p k : ℤ) (kp : List (ℤ × Option ℤ))
    (hnd : (kp.map Prod.fst).Nodup) (hmem : (k, some p) ∈ kp)
    (hk : ¬ k = env.rootHash) : List.count k (childKeysKP env p kp) = 1 := by
  induction kp with
  | nil => simp at hmem
  | cons q kp ih =>
    simp only [List.map_cons, List.nodup_cons] at hnd
    obtain ⟨hq, hnd'⟩ := hnd
    rcases List.mem_cons.mp hmem with heq | hmem'
    · have hqk : q = (k, some p) := heq.symm
      subst hqk
      have hstep : childKeysKP env p ((k, some p) :: kp)
          = k :: childKeysKP env p kp := by
        simp [childKeysKP, List.filter_cons, List.filterMap_cons, hk]
      rw [hstep, List.count_cons_self,
        @count_childKeysKP_zero env p k kp hq]
    · have hqk : ¬ q.1 = k :=
        fun e => hq (e ▸ List.mem_map.mpr ⟨(k, some p), hmem', rfl⟩)
      have hhead : List.count k (childKeysKP env p (q :: kp))
          = List.count k (childKeysKP env p kp) := by
        unfold childKeysKP
        simp only [List.filter_cons]
        by_cases hroot : q.1 = env.rootHash
        · simp [hroot]
        · simp only [hroot, not_false_eq_true, decide_True, if_true,
            List.filterMap_cons]
          by_cases hps : q.2 = some p
          · rw [if_pos hps, List.count_cons_of_ne (fun e => hqk e.symm)]
          · rw [if_neg hps]
      rw [hhead]
      exact ih hnd' hmem'

/-- C8: `get_children` is not idempotent.  From a state where all
children lists are empty, one invocation appends every non-root node
exactly once to its parent's children list (its key has count 1 there);
invoking it a second time without clearing duplicates every entry (count
2). -/
theorem C8_get_children_not_idempotent (env : Env) (t : MasterTree)
    (hnd : (t.nodes.map Prod.fst).Nodup)
    (hempty : ∀ k n, alookup k t.nodes = some n → n.children = [])
    (k p : ℤ) (n pn : MasterNode)
    (hk : alookup k t.nodes = some n) (hkr : ¬ k = env.rootHash)
    (hp : n.parentNode = some p) (hpl : alookup p t.nodes = some pn) :
    (alookup p (t.get_children env).nodes).map
        (fun q => List.count k q.children) = some 1
    ∧ (alookup p ((t.get_children env).get_children env).nodes).map
        (fun q => List.count k q.children) = some 2 := by
  have hndkp : ((kparents t).map Prod.fst).Nodup := by
    unfold kparents
    rw [List.map_map]
    exact hnd
  have hmemkp : (k, some p) ∈ kparents t :=
    List.mem_map.mpr ⟨(k, n), mem_of_alookup hk, by simp [hp]⟩
  have hck1 : List.count k (childKeys env t p) = 1 :=
    count_childKeysKP_one env p k (kparents t) hndkp hmemkp hkr
  have hpe : pn.children = [] := hempty p pn hpl
  have hG : alookup p (t.get_children env).nodes
      = some (withChildren (childKeys env t p) pn) := by
    rw [get_children_alookup, hpl]
    rfl
  have hinv : childKeys env (t.get_children env) p = childKeys env t p := by
    unfold childKeys
    rw [kparents_get_children]
  have hGG : alookup p ((t.get_children env).get_children env).nodes
      = some (withChildren (childKeys env t p)
          (withChildren (childKeys env t p) pn)) := by
    rw [get_children_alookup, hG, hinv]
    rfl
  constructor
  · rw [hG]
    simp only [Option.map_some', withChildren, hpe, List.nil_append]
    rw [hck1]
  · rw [hGG]
    simp only [Option.map_some', withChildren, hpe, List.nil_append,
      List.count_append]
    rw [hck1]

/-- Witness for C8 on the concrete chain tree (node C, key 3, parent B,
key 2): count 1 after one pass, count 2 after two. -/
theorem C8_get_children_not_idempotent_witness :
    (alookup 2 (chainTree.get_children testEnv).nodes).map
        (fun q => List.count 3 q.children) = some 1
    ∧ (alookup 2 ((chainTree.get_children testEnv).get_children testEnv).nodes).map
        (fun q => List.count 3 q.children) = some 2 :=
  C8_get_children_not_idempotent testEnv chainTree (by decide)
    (by
      intro k n h
      simp only [chainTree, alookup] at h
      split_ifs at h with h0 h1 h2 h3
      · injection h with h
        rw [← h]
        rfl
      · injection h with h
        rw [← h]
        rfl
      · injection h with h
        rw [← h]
        rfl
      · injection h with h
        rw [← h]
        rfl)
    3 2 nodeC nodeB (by decide) (by decide) (by decide) (by decide)

/-! ## Lemmas about depth assignment and the breadth-first loop -/

theorem setDepth_parentNode (d : ℕ) (n : MasterNode) :
    (setDepth d n).parentNode = n.parentNode := rfl

theorem setDepth_children (d : ℕ) (n : MasterNode) :
    (setDepth d n).children = n.children := rfl

theorem setDepth_depth (d : ℕ) (n : MasterNode) :
    (setDepth d n).depth = some d := rfl

theorem setDepth_comp (d d' : ℕ) :
    setDepth d ∘ setDepth d' = setDepth d := funext (fun _ => rfl)

theorem setDepth_self {d : ℕ} {n : MasterNode} (h : n.depth = some d) :
    setDepth d n = n := by
  cases n with
  | mk a b c r ch dep =>
    simp at h
    simp [setDepth, h]

theorem alookup_setDepths (ks : List ℤ) (d : ℕ) (ar : Arena) (k : ℤ) :
    alookup k (setDepths ks d ar)
      = if k ∈ ks then (alookup k ar).map (setDepth d) else alookup k ar := by
  induction ks generalizing ar with
  | nil => simp [setDepths]
  | cons c cs ih =>
    show alookup k (setDepths cs d (amap c (setDepth d) ar)) = _
    rw [ih, alookup_amap]
    by_cases h1 : k ∈ cs
    · by_cases h2 : c = k <;>
        simp [h1, h2, List.mem_cons, Option.map_map, setDepth_comp]
    · by_cases h2 : c = k
      · simp [h1, h2, List.mem_cons, Option.map_map, setDepth_comp]
      · simp [h1, h2, Ne.symm h2, List.mem_cons]

theorem map_fst_amap (k : ℤ) (f : MasterNode → MasterNode) (ar : Arena) :
    (amap k f ar).map Prod.fst = ar.map Prod.fst := by
  induction ar with
  | nil => rfl
  | cons p ps ih =>
    by_cases h : p.1 = k <;> simp [amap, h, ih]

theorem map_fst_setDepths (ks : List ℤ) (d : ℕ) (ar : Arena) :
    (setDepths ks d ar).map Prod.fst = ar.map Prod.fst := by
  induction ks generalizing ar with
  | nil => rfl
  | cons c cs ih =>
    show (setDepths cs d (amap c (setDepth d) ar)).map Prod.fst = _
    rw [ih, map_fst_amap]

theorem map_fst_bfsFuel (fuel : ℕ) (ar : Arena) (queue : List ℤ) :
    (bfsFuel fuel ar queue).map Prod.fst = ar.map Prod.fst := by
  induction fuel generalizing ar queue with
  | zero => cases queue <;> rfl
  | succ f ih =>
    cases queue with
    | nil => rfl
    | cons k rest =>
      cases hl : alookup k ar with
      | none => simp [bfsFuel, hl]
      | some n =>
        cases hd : n.depth with
        | some d =>
          simp only [bfsFuel, hl, hd]
          rw [ih, map_fst_setDepths]
        | none =>
          cases hempty : n.children.isEmpty with
          | true =>
            simp only [bfsFuel, hl, hd, hempty, if_true]
            exact ih ar rest
          | false => simp [bfsFuel, hl, hd, hempty]

theorem le_listMaxNat {l : List ℕ} {x : ℕ} (hx : x ∈ l) : x ≤ listMaxNat l := by
  induction l with
  | nil => simp at hx
  | cons y ys ih =>
    rcases List.mem_cons.mp hx with rfl | h
    · exact le_max_left x (listMaxNat ys)
    · exact le_trans (ih h) (le_max_right y (listMaxNat ys))

theorem listMaxNat_mem {l : List ℕ} (h : l ≠ []) : listMaxNat l ∈ l := by
  induction l with
  | nil => exact absurd rfl h
  | cons y ys ih =>
    cases ys with
    | nil => simp [listMaxNat]
    | cons z zs =>
      show max y (listMaxNat (z :: zs)) ∈ y :: z :: zs
      rcases le_total y (listMaxNat (z :: zs)) with hle | hle
      · rw [max_eq_right hle]
        exact List.mem_cons_of_mem _ (ih (by simp))
      · rw [max_eq_left hle]
        exact List.mem_cons_self _ _

theorem nodup_fst_unique {l : List (ℤ × ℕ)} (hnd : (l.map Prod.fst).Nodup)
    {k : ℤ} {d1 d2 : ℕ} (h1 : (k, d1) ∈ l) (h2 : (k, d2) ∈ l) : d1 = d2 := by
  induction l with
  | nil => simp at h1
  | cons q l ih =>
    simp only [List.map_cons, List.nodup_cons] at hnd
    rcases List.mem_cons.mp h1 with e1 | m1 <;> rcases List.mem_cons.mp h2 with e2 | m2
    · have e := e1.trans e2.symm
      simp at e
      exact e
    · exact absurd (List.mem_map.mpr ⟨(k, d2), m2, by rw [← e1]⟩) hnd.1
    · exact absurd (List.mem_map.mpr ⟨(k, d1), m1, by rw [← e2]⟩) hnd.1
    · exact ih hnd.2 m1 m2

theorem alookup_of_mem_nodup {ar : Arena} (hnd : (ar.map Prod.fst).Nodup)
    {k : ℤ} {n : MasterNode} (h : (k, n) ∈ ar) : alookup k ar = some n := by
  induction ar with
  | nil => simp at h
  | cons q ps ih =>
    simp only [List.map_cons, List.nodup_cons] at hnd
    rcases List.mem_cons.mp h with e | m
    · rw [← e, alookup, if_pos rfl]
    · have hq : ¬ q.1 = k :=
        fun e' => hnd.1 (List.mem_map.mpr ⟨(k, n), m, by rw [e']⟩)
      rw [alookup, if_neg hq]
      exact ih hnd.2 m

/-! ## Structural lemmas about shapes -/

theorem Shape.key_mem_keys : ∀ sh : Shape, sh.key ∈ sh.keys
  | .node _ _ => List.mem_cons_self _ _

mutual

theorem Shape.assign_map_fst : ∀ (sh : Shape) (d : ℕ),
    (sh.assign d).map Prod.fst = sh.keys
  | .node k kids, d => by
    simp only [Shape.assign, Shape.keys, List.map_cons]
    rw [Forest.assignF_map_fst kids (d + 1)]

theorem Forest.assignF_map_fst : ∀ (f : Forest) (d : ℕ),
    (Forest.assignF f d).map Prod.fst = Forest.keysF f
  | .nil, _ => rfl
  | .cons s ss, d => by
    simp only [Forest.assignF, Forest.keysF, List.map_append]
    rw [Shape.assign_map_fst s d, Forest.assignF_map_fst ss d]

end

mutual

theorem Shape.keys_length : ∀ sh : Shape, sh.keys.length = sh.size
  | .node k kids => by
    simp only [Shape.keys, Shape.size, List.length_cons]
    rw [Forest.keysF_length kids]
    omega

theorem Forest.keysF_length : ∀ f : Forest, f.keysF.length = f.sizeF
  | .nil => rfl
  | .cons s ss => by
    simp only [Forest.keysF, Forest.sizeF, List.length_append]
    rw [Shape.keys_length s, Forest.keysF_length ss]

end

theorem Shape.size_pos : ∀ sh : Shape, 1 ≤ sh.size
  | .node _ kids => by
    simp only [Shape.size]
    omega

theorem Forest.rootKeys_subset : ∀ (f : Forest), ∀ k ∈ f.rootKeys, k ∈ f.keysF
  | .cons s ss => by
    intro k hk
    simp only [Forest.rootKeys, List.mem_cons] at hk
    simp only [Forest.keysF, List.mem_append]
    rcases hk with rfl | hk
    · exact Or.inl (Shape.key_mem_keys s)
    · exact Or.inr (Forest.rootKeys_subset ss k hk)
  | .nil => by
    intro k hk
    simp [Forest.rootKeys] at hk

mutual

theorem Fits_lookup (ar : Arena) : ∀ (sh : Shape) (par : Option ℤ),
    Fits ar par sh → ∀ k ∈ sh.keys, ∃ n, alookup k ar = some n
  | .node k0 kids, par, h, k, hk => by
    simp only [Fits] at h
    obtain ⟨⟨n, hl, -, -⟩, hf⟩ := h
    simp only [Shape.keys, List.mem_cons] at hk
    rcases hk with rfl | hk
    · exact ⟨n, hl⟩
    · exact FitsF_lookup ar kids k0 hf k hk

theorem FitsF_lookup (ar : Arena) : ∀ (f : Forest) (pk : ℤ),
    FitsF ar pk f → ∀ k ∈ Forest.keysF f, ∃ n, alookup k ar = some n
  | .nil, _, _, k, hk => by simp [Forest.keysF] at hk
  | .cons s ss, pk, h, k, hk => by
    simp only [Forest.keysF, List.mem_append] at hk
    rcases hk with hk | hk
    · exact Fits_lookup ar s (some pk) h.1 k hk
    · exact FitsF_lookup ar ss pk h.2 k hk

end

mutual

theorem Fits_amap (k : ℤ) (d : ℕ) (ar : Arena) :
    ∀ (sh : Shape) (par : Option ℤ),
    Fits ar par sh → Fits (amap k (setDepth d) ar) par sh
  | .node k0 kids, par, h => by
    simp only [Fits] at h ⊢
    obtain ⟨⟨n, hl, hp, hc⟩, hf⟩ := h
    refine ⟨?_, FitsF_amap k d ar kids k0 hf⟩
    rw [alookup_amap]
    by_cases hk : k = k0
    · rw [if_pos hk, hl]
      exact ⟨setDepth d n, rfl, hp, hc⟩
    · rw [if_neg hk]
      exact ⟨n, hl, hp, hc⟩

theorem FitsF_amap (k : ℤ) (d : ℕ) (ar : Arena) :
    ∀ (f : Forest) (pk : ℤ),
    FitsF ar pk f → FitsF (amap k (setDepth d) ar) pk f
  | .nil, _, _ => trivial
  | .cons s ss, pk, h =>
    ⟨Fits_amap k d ar s (some pk) h.1, FitsF_amap k d ar ss pk h.2⟩

end

theorem Fits_setDepths (ks : List ℤ) (d : ℕ) (ar : Arena) (par : Option ℤ)
    (sh : Shape) (h : Fits ar par sh) : Fits (setDepths ks d ar) par sh := by
  induction ks generalizing ar with
  | nil => exact h
  | cons c cs ih =>
    show Fits (setDepths cs d (amap c (setDepth d) ar)) par sh
    exact ih (amap c (setDepth d) ar) (Fits_amap c d ar sh par h)

theorem Fits_root_lookup {ar : Arena} {par : Option ℤ} {sh : Shape}
    (h : Fits ar par sh) :
    ∃ n, alookup sh.key ar = some n ∧ n.parentNode = par := by
  cases sh with
  | node k kids =>
    simp only [Fits] at h
    obtain ⟨⟨n, hl, hp, -⟩, -⟩ := h
    exact ⟨n, hl, hp⟩

/-! ## Frontier lemmas -/

theorem forestFrontier_map_key : ∀ (f : Forest) (d : ℕ),
    (forestFrontier f d).map (fun p => p.1.key) = f.rootKeys
  | .nil, _ => rfl
  | .cons s ss, d => by
    simp only [forestFrontier, Forest.rootKeys, List.map_cons]
    rw [forestFrontier_map_key ss d]

theorem frontierAssign_forestFrontier : ∀ (f : Forest) (d : ℕ),
    frontierAssign (forestFrontier f d) = Forest.assignF f d
  | .nil, _ => rfl
  | .cons s ss, d => by
    simp only [forestFrontier, frontierAssign, Forest.assignF]
    rw [frontierAssign_forestFrontier ss d]

theorem frontierSize_forestFrontier : ∀ (f : Forest) (d : ℕ),
    frontierSize (forestFrontier f d) = f.sizeF
  | .nil, _ => rfl
  | .cons s ss, d => by
    simp only [forestFrontier, frontierSize, Forest.sizeF]
    rw [frontierSize_forestFrontier ss d]

theorem frontierKeys_forestFrontier : ∀ (f : Forest) (d : ℕ),
    frontierKeys (forestFrontier f d) = f.keysF
  | .nil, _ => rfl
  | .cons s ss, d => by
    simp only [forestFrontier, frontierKeys, Forest.keysF]
    rw [frontierKeys_forestFrontier ss d]

theorem mem_forestFrontier : ∀ (f : Forest) (d : ℕ) (p : Shape × ℕ),
    p ∈ forestFrontier f d → p.2 = d ∧ p.1.key ∈ f.rootKeys
  | .nil, _, p, hp => by simp [forestFrontier] at hp
  | .cons s ss, d, p, hp => by
    simp only [forestFrontier, List.mem_cons] at hp
    rcases hp with rfl | hp
    · exact ⟨rfl, List.mem_cons_self _ _⟩
    · obtain ⟨h1, h2⟩ := mem_forestFrontier ss d p hp
      exact ⟨h1, List.mem_cons_of_mem _ h2⟩

theorem FitsF_forestFrontier (ar : Arena) (pk : ℤ) :
    ∀ (f : Forest) (d : ℕ), FitsF ar pk f →
    ∀ p ∈ forestFrontier f d, Fits ar (some pk) p.1
  | .nil, _, _, p, hp => by simp [forestFrontier] at hp
  | .cons s ss, d, h, p, hp => by
    simp only [forestFrontier, List.mem_cons] at hp
    rcases hp with rfl | hp
    · exact h.1
    · exact FitsF_forestFrontier ar pk ss d h.2 p hp

theorem frontierKeys_append (F1 F2 : List (Shape × ℕ)) :
    frontierKeys (F1 ++ F2) = frontierKeys F1 ++ frontierKeys F2 := by
  induction F1 with
  | nil => rfl
  | cons p ps ih => simp [frontierKeys, ih]

theorem frontierAssign_append (F1 F2 : List (Shape × ℕ)) :
    frontierAssign (F1 ++ F2) = frontierAssign F1 ++ frontierAssign F2 := by
  induction F1 with
  | nil => rfl
  | cons p ps ih => simp [frontierAssign, ih]

theorem frontierSize_append (F1 F2 : List (Shape × ℕ)) :
    frontierSize (F1 ++ F2) = frontierSize F1 + frontierSize F2 := by
  induction F1 with
  | nil => simp [frontierSize]
  | cons p ps ih => simp [frontierSize, ih]; omega

theorem mem_frontierKeys {F : List (Shape × ℕ)} {p : Shape × ℕ}
    (hp : p ∈ F) {x : ℤ} (hx : x ∈ p.1.keys) : x ∈ frontierKeys F := by
  induction F with
  | nil => simp at hp
  | cons q F ih =>
    simp only [frontierKeys, List.mem_append]
    rcases List.mem_cons.mp hp with rfl | hp
    · exact Or.inl hx
    · exact Or.inr (ih hp)

theorem frontierAssign_key_mem {F : List (Shape × ℕ)} {kd : ℤ × ℕ}
    (h : kd ∈ frontierAssign F) : kd.1 ∈ frontierKeys F := by
  induction F with
  | nil => simp [frontierAssign] at h
  | cons q F ih =>
    simp only [frontierAssign, List.mem_append] at h
    simp only [frontierKeys, List.mem_append]
    rcases h with h | h
    · left
      rw [← Shape.assign_map_fst q.1 q.2]
      exact List.mem_map.mpr ⟨kd, h, rfl⟩
    · exact Or.inr (ih h)

/-! ## From a shape to the parent/depth relation

Every key of a shape is either the root (assigned the base depth, with
the given parent reference), or the child of some key `q` in the shape:
`q` is assigned some depth `dq`, the key is assigned `dq + 1`, and its
arena node's parent reference is `q`. -/

mutual

theorem kid_link (ar : Arena) : ∀ (sh : Shape) (d0 : ℕ) (par : Option ℤ),
    Fits ar par sh → ∀ k, k ∈ sh.keys →
    ((k, d0) ∈ sh.assign d0 ∧ k = sh.key
        ∧ ∃ n, alookup k ar = some n ∧ n.parentNode = par)
    ∨ (∃ q dq n, (q, dq) ∈ sh.assign d0 ∧ (k, dq + 1) ∈ sh.assign d0
        ∧ alookup k ar = some n ∧ n.parentNode = some q)
  | .node k0 kids, d0, par, hfit, k, hk => by
    have hfit' := hfit
    simp only [Fits] at hfit'
    obtain ⟨⟨n, hl, hp, hc⟩, hff⟩ := hfit'
    simp only [Shape.keys, List.mem_cons] at hk
    rcases hk with rfl | hk
    · left
      exact ⟨List.mem_cons_self _ _, rfl, n, hl, hp⟩
    · right
      rcases kid_link_forest ar kids (d0 + 1) k0 hff k hk with
        ⟨hmem, n', hl', hp'⟩ | ⟨q, dq, n', h1, h2, h3, h4⟩
      · exact ⟨k0, d0, n', List.mem_cons_self _ _,
          List.mem_cons_of_mem _ hmem, hl', hp'⟩
      · exact ⟨q, dq, n', List.mem_cons_of_mem _ h1,
          List.mem_cons_of_mem _ h2, h3, h4⟩

theorem kid_link_forest (ar : Arena) : ∀ (f : Forest) (d1 : ℕ) (pk : ℤ),
    FitsF ar pk f → ∀ k, k ∈ Forest.keysF f →
    ((k, d1) ∈ Forest.assignF f d1
        ∧ ∃ n, alookup k ar = some n ∧ n.parentNode = some pk)
    ∨ (∃ q dq n, (q, dq) ∈ Forest.assignF f d1
        ∧ (k, dq + 1) ∈ Forest.assignF f d1
        ∧ alookup k ar = some n ∧ n.parentNode = some q)
  | .nil, _, _, _, k, hk => by simp [Forest.keysF] at hk
  | .cons s ss, d1, pk, hff, k, hk => by
    simp only [Forest.keysF, List.mem_append] at hk
    rcases hk with hk | hk
    · rcases kid_link ar s d1 (some pk) hff.1 k hk with
        ⟨hmem, hkey, n, hl, hp⟩ | ⟨q, dq, n, h1, h2, h3, h4⟩
      · left
        exact ⟨List.mem_append_left _ hmem, n, hl, hp⟩
      · right
        exact ⟨q, dq, n, List.mem_append_left _ h1,
          List.mem_append_left _ h2, h3, h4⟩
    · rcases kid_link_forest ar ss d1 pk hff.2 k hk with
        ⟨hmem, n, hl, hp⟩ | ⟨q, dq, n, h1, h2, h3, h4⟩
      · left
        exact ⟨List.mem_append_right _ hmem, n, hl, hp⟩
      · right
        exact ⟨q, dq, n, List.mem_append_right _ h1,
          List.mem_append_right _ h2, h3, h4⟩

end

/-- Soundness of the breadth-first loop: run on a queue realising a
frontier of disjoint tree shapes whose roots already carry their depths,
with fuel at least the total shape size, it leaves every key outside the
frontier untouched and sets the depth of every frontier key to its
shape-assigned value (touching nothing else of the node). -/
theorem bfs_spec : ∀ (fuel : ℕ) (F : List (Shape × ℕ)) (ar : Arena),
    (∀ p ∈ F, ∃ par, Fits ar par p.1) →
    (∀ p ∈ F, ∃ n, alookup p.1.key ar = some n ∧ n.depth = some p.2) →
    (frontierKeys F).Nodup →
    frontierSize F ≤ fuel →
    (∀ k, k ∉ frontierKeys F →
        alookup k (bfsFuel fuel ar (F.map (fun p => p.1.key))) = alookup k ar)
    ∧ (∀ kd ∈ frontierAssign F,
        alookup kd.1 (bfsFuel fuel ar (F.map (fun p => p.1.key)))
          = (alookup kd.1 ar).map (setDepth kd.2)) := by
  intro fuel
  induction fuel with
  | zero =>
    intro F ar hfits hdep hnd hsz
    cases F with
    | nil =>
      constructor
      · intro k _
        rfl
      · intro kd hkd
        simp [frontierAssign] at hkd
    | cons p F' =>
      exfalso
      have h1 := Shape.size_pos p.1
      simp only [frontierSize] at hsz
      omega
  | succ f ih =>
    intro F ar hfits hdep hnd hsz
    cases F with
    | nil =>
      constructor
      · intro k _
        rfl
      · intro kd hkd
        simp [frontierAssign] at hkd
    | cons p F' =>
      obtain ⟨sh, d⟩ := p
      cases sh with
      | node k0 kids =>
        obtain ⟨par0, hfit0⟩ := hfits ⟨.node k0 kids, d⟩ (List.mem_cons_self _ _)
        have hfit0' := hfit0
        simp only [Fits] at hfit0'
        obtain ⟨⟨n0, hl0, hp0, hc0⟩, hff⟩ := hfit0'
        obtain ⟨n0', hl0x, hd0⟩ := hdep ⟨.node k0 kids, d⟩ (List.mem_cons_self _ _)
        have hl0' : alookup k0 ar = some n0' := hl0x
        rw [hl0] at hl0'
        injection hl0' with he
        subst he
        have hd0' : n0.depth = some d := hd0
        -- nodup bookkeeping
        have hndc : (k0 :: (Forest.keysF kids ++ frontierKeys F')).Nodup := by
          simpa [frontierKeys, Shape.keys, List.cons_append] using hnd
        have hnd1 : k0 ∉ Forest.keysF kids ++ frontierKeys F' :=
          (List.nodup_cons.mp hndc).1
        have hnd2 : (Forest.keysF kids ++ frontierKeys F').Nodup :=
          (List.nodup_cons.mp hndc).2
        have hdisj : List.Disjoint (Forest.keysF kids) (frontierKeys F') :=
          (List.nodup_append.mp hnd2).2.2
        -- the new arena and frontier after the pop
        have hqueue2 : F'.map (fun p => p.1.key) ++ Forest.rootKeys kids
            = (F' ++ forestFrontier kids (d + 1)).map (fun p => p.1.key) := by
          rw [List.map_append, forestFrontier_map_key]
        have hstep : bfsFuel (f + 1) ar
              ((⟨Shape.node k0 kids, d⟩ :: F').map (fun p => p.1.key))
            = bfsFuel f (setDepths (Forest.rootKeys kids) (d + 1) ar)
                ((F' ++ forestFrontier kids (d + 1)).map (fun p => p.1.key)) := by
          have hmq : (⟨Shape.node k0 kids, d⟩ :: F').map
                (fun p => (p : Shape × ℕ).1.key)
              = k0 :: F'.map (fun p => p.1.key) := rfl
          rw [hmq]
          simp only [bfsFuel, hl0, hd0', hc0]
          rw [hqueue2]
        -- IH hypotheses for the new state
        have hfits2 : ∀ p ∈ F' ++ forestFrontier kids (d + 1),
            ∃ par, Fits (setDepths (Forest.rootKeys kids) (d + 1) ar) par p.1 := by
          intro p hp
          rcases List.mem_append.mp hp with hp | hp
          · obtain ⟨par, hf⟩ := hfits p (List.mem_cons_of_mem _ hp)
            exact ⟨par, Fits_setDepths _ _ _ _ _ hf⟩
          · exact ⟨some k0, Fits_setDepths _ _ _ _ _
              (FitsF_forestFrontier ar k0 kids (d + 1) hff p hp)⟩
        have hdep2 : ∀ p ∈ F' ++ forestFrontier kids (d + 1),
            ∃ n, alookup p.1.key (setDepths (Forest.rootKeys kids) (d + 1) ar)
              = some n ∧ n.depth = some p.2 := by
          intro p hp
          rcases List.mem_append.mp hp with hp | hp
          · obtain ⟨n, hl, hd⟩ := hdep p (List.mem_cons_of_mem _ hp)
            refine ⟨n, ?_, hd⟩
            rw [alookup_setDepths, if_neg, hl]
            intro hr
            exact hdisj (Forest.rootKeys_subset kids _ hr)
              (mem_frontierKeys hp (Shape.key_mem_keys p.1))
          · obtain ⟨hp2, hkroot⟩ := mem_forestFrontier kids (d + 1) p hp
            have hfitp : Fits ar (some k0) p.1 :=
              FitsF_forestFrontier ar k0 kids (d + 1) hff p hp
            obtain ⟨np, hlp, -⟩ := Fits_root_lookup hfitp
            refine ⟨setDepth (d + 1) np, ?_, ?_⟩
            · rw [alookup_setDepths, if_pos hkroot, hlp]
              rfl
            · rw [setDepth_depth, hp2]
        have hnd2' : (frontierKeys (F' ++ forestFrontier kids (d + 1))).Nodup := by
          rw [frontierKeys_append, frontierKeys_forestFrontier]
          rw [List.nodup_append] at hnd2 ⊢
          obtain ⟨a, b, c⟩ := hnd2
          exact ⟨b, a, c.symm⟩
        have hsz2 : frontierSize (F' ++ forestFrontier kids (d + 1)) ≤ f := by
          rw [frontierSize_append, frontierSize_forestFrontier]
          simp only [frontierSize, Shape.size] at hsz
          omega
        have IH := ih (F' ++ forestFrontier kids (d + 1))
          (setDepths (Forest.rootKeys kids) (d + 1) ar) hfits2 hdep2 hnd2' hsz2
        rw [hstep]
        have hF2keys : frontierKeys (F' ++ forestFrontier kids (d + 1))
            = frontierKeys F' ++ Forest.keysF kids := by
          rw [frontierKeys_append, frontierKeys_forestFrontier]
        constructor
        · -- untouched keys
          intro k hk
          have hk' : ¬ k = k0 ∧ k ∉ Forest.keysF kids ∧ k ∉ frontierKeys F' := by
            simp only [frontierKeys, Shape.keys, List.cons_append,
              List.mem_cons, List.mem_append] at hk
            push_neg at hk
            exact ⟨hk.1, hk.2.1, hk.2.2⟩
          rw [IH.1 k (by
            rw [hF2keys]
            intro hmem
            rcases List.mem_append.mp hmem with h | h
            · exact hk'.2.2 h
            · exact hk'.2.1 h)]
          rw [alookup_setDepths, if_neg]
          intro hr
          exact hk'.2.1 (Forest.rootKeys_subset kids _ hr)
        · -- assigned keys
          intro kd hkd
          have hkd' : kd = (k0, d)
              ∨ kd ∈ Forest.assignF kids (d + 1)
              ∨ kd ∈ frontierAssign F' := by
            simp only [frontierAssign, Shape.assign, List.cons_append,
              List.mem_cons, List.mem_append] at hkd
            tauto
          have hfa2 : frontierAssign (F' ++ forestFrontier kids (d + 1))
              = frontierAssign F' ++ Forest.assignF kids (d + 1) := by
            rw [frontierAssign_append, frontierAssign_forestFrontier]
          rcases hkd' with rfl | hkd' | hkd'
          · -- the popped root: already at its final depth
            rw [IH.1 k0 (by
              rw [hF2keys]
              intro hmem
              exact hnd1 (by
                rcases List.mem_append.mp hmem with h | h
                · exact List.mem_append_right _ h
                · exact List.mem_append_left _ h))]
            rw [alookup_setDepths, if_neg (fun hr =>
              hnd1 (List.mem_append_left _ (Forest.rootKeys_subset kids _ hr)))]
            rw [hl0]
            rw [show (Option.some n0).map (setDepth d) = some (setDepth d n0) from rfl,
              setDepth_self hd0']
          · -- a key inside the kids' shapes
            have hmem2 : kd ∈ frontierAssign (F' ++ forestFrontier kids (d + 1)) := by
              rw [hfa2]
              exact List.mem_append_right _ hkd'
            rw [IH.2 kd hmem2, alookup_setDepths]
            by_cases hr : kd.1 ∈ Forest.rootKeys kids
            · rw [if_pos hr, Option.map_map, setDepth_comp]
            · rw [if_neg hr]
          · -- a key of the untouched rest of the frontier
            have hmem2 : kd ∈ frontierAssign (F' ++ forestFrontier kids (d + 1)) := by
              rw [hfa2]
              exact List.mem_append_left _ hkd'
            rw [IH.2 kd hmem2, alookup_setDepths, if_neg (fun hr =>
              hdisj (Forest.rootKeys_subset kids _ hr)
                (frontierAssign_key_mem hkd'))]

theorem setDepth_setDepth (a b : ℕ) (n : MasterNode) :
    setDepth a (setDepth b n) = setDepth a n := rfl

theorem key_assign_mem : ∀ (sh : Shape) (d0 : ℕ), (sh.key, d0) ∈ sh.assign d0
  | .node _ _, _ => List.mem_cons_self _ _

/-- C9: after a correct `get_children` pass — formalised as: the node set
realises a tree shape `sh` rooted at the root key (parent `none`), with
distinct keys, covering the whole node set — `get_depth` assigns
`root.depth = 0` and `child.depth = parent.depth + 1` for every node
(every node of the set is reachable from the root), and sets `max_depth`
to the maximum depth over all nodes of the node set. -/
theorem C9_get_depth (env : Env) (t : MasterTree) (sh : Shape)
    (hfit : Fits t.nodes none sh) (hkey : sh.key = env.rootHash)
    (hshnd : sh.keys.Nodup)
    (hndar : (t.nodes.map Prod.fst).Nodup)
    (hcover : ∀ k ∈ t.nodes.map Prod.fst, k ∈ sh.keys) :
    (∃ rn, alookup env.rootHash (t.get_depth env).nodes = some rn
        ∧ rn.depth = some 0)
    ∧ (∀ k n p pn, alookup k (t.get_depth env).nodes = some n →
        n.parentNode = some p →
        alookup p (t.get_depth env).nodes = some pn →
        ∃ dp, pn.depth = some dp ∧ n.depth = some (dp + 1))
    ∧ (∃ m, (t.get_depth env).max_depth = some m
        ∧ (∀ k n, alookup k (t.get_depth env).nodes = some n →
            ∃ dn, n.depth = some dn ∧ dn ≤ m)
        ∧ (∃ k n, alookup k (t.get_depth env).nodes = some n
            ∧ n.depth = some m)) := by
  obtain ⟨nr, hlr, hpr⟩ := Fits_root_lookup hfit
  have hlr' : alookup env.rootHash t.nodes = some nr := by
    rw [← hkey]
    exact hlr
  -- evaluate get_depth to the bfs run
  have hgd : t.get_depth env
      = ⟨bfsFuel (amap env.rootHash (setDepth 0) t.nodes).length
            (amap env.rootHash (setDepth 0) t.nodes) [env.rootHash],
          t.probability, t.numScenarios,
          some (listMaxNat ((bfsFuel (amap env.rootHash (setDepth 0) t.nodes).length
            (amap env.rootHash (setDepth 0) t.nodes) [env.rootHash]).map
              (fun p => p.2.depth.getD 0)))⟩ := by
    unfold MasterTree.get_depth
    rw [hlr']
  -- the bfs specification applied to the single-shape frontier
  have hfits0 : ∀ p ∈ [(sh, 0)], ∃ par,
      Fits (amap env.rootHash (setDepth 0) t.nodes) par p.1 := by
    intro p hp
    simp only [List.mem_singleton] at hp
    subst hp
    exact ⟨none, Fits_amap env.rootHash 0 t.nodes sh none hfit⟩
  have hdep0 : ∀ p ∈ [(sh, 0)], ∃ n,
      alookup p.1.key (amap env.rootHash (setDepth 0) t.nodes) = some n
        ∧ n.depth = some p.2 := by
    intro p hp
    simp only [List.mem_singleton] at hp
    subst hp
    refine ⟨setDepth 0 nr, ?_, rfl⟩
    rw [alookup_amap, hkey, if_pos rfl, hlr']
    rfl
  have hnd0 : (frontierKeys [(sh, 0)]).Nodup := by
    simpa [frontierKeys] using hshnd
  have hsub : sh.keys ⊆ t.nodes.map Prod.fst := by
    intro x hx
    obtain ⟨n, hn⟩ := Fits_lookup t.nodes sh none hfit x hx
    exact mem_keys_of_alookup hn
  have hsz0 : frontierSize [(sh, 0)]
      ≤ (amap env.rootHash (setDepth 0) t.nodes).length := by
    have h1 : sh.keys.length ≤ (t.nodes.map Prod.fst).length :=
      (List.subperm_of_subset hshnd hsub).length_le
    simp only [frontierSize, length_amap]
    rw [← Shape.keys_length]
    simpa using h1
  have hB := bfs_spec (amap env.rootHash (setDepth 0) t.nodes).length
    [(sh, 0)] (amap env.rootHash (setDepth 0) t.nodes) hfits0 hdep0 hnd0 hsz0
  have hqF0 : [((sh : Shape), (0 : ℕ))].map (fun p => p.1.key)
      = [env.rootHash] := by
    simp [hkey]
  rw [hqF0] at hB
  obtain ⟨B1, B2⟩ := hB
  -- every assigned key: original node, final node
  have hassigned : ∀ kd ∈ sh.assign 0, ∃ norig,
      alookup kd.1 t.nodes = some norig
      ∧ alookup kd.1 (bfsFuel (amap env.rootHash (setDepth 0) t.nodes).length
          (amap env.rootHash (setDepth 0) t.nodes) [env.rootHash])
        = some (setDepth kd.2 norig) := by
    intro kd hkd
    have hb := B2 kd (by simpa [frontierAssign] using hkd)
    have hkmem : kd.1 ∈ sh.keys := by
      rw [← Shape.assign_map_fst sh 0]
      exact List.mem_map.mpr ⟨kd, hkd, rfl⟩
    obtain ⟨norig, hlo⟩ := Fits_lookup t.nodes sh none hfit kd.1 hkmem
    refine ⟨norig, hlo, ?_⟩
    rw [hb, alookup_amap]
    by_cases hrk : env.rootHash = kd.1
    · rw [if_pos hrk, hlo]
      rfl
    · rw [if_neg hrk, hlo]
      rfl
  -- keys are preserved by the whole pass
  have hkeys1 : (bfsFuel (amap env.rootHash (setDepth 0) t.nodes).length
      (amap env.rootHash (setDepth 0) t.nodes) [env.rootHash]).map Prod.fst
      = t.nodes.map Prod.fst := by
    rw [map_fst_bfsFuel, map_fst_amap]
  refine ⟨?_, ?_, ?_⟩
  · -- (a) the root is assigned depth 0
    obtain ⟨norig, -, hla⟩ := hassigned (sh.key, 0) (key_assign_mem sh 0)
    rw [hkey] at hla
    rw [hgd]
    exact ⟨setDepth 0 norig, hla, rfl⟩
  · -- (b) child depth = parent depth + 1
    intro k n p pn hln hpn hlp
    rw [hgd] at hln hlp
    have hkmem : k ∈ sh.keys := by
      apply hcover
      rw [← hkeys1]
      exact mem_keys_of_alookup hln
    rcases kid_link t.nodes sh 0 none hfit k hkmem with
      ⟨hmem0, hkeyk, n', hln', hpn'⟩ | ⟨q, dq, n', hq, hk1, hln', hpar'⟩
    · -- k is the root: its parent reference is none, contradiction
      exfalso
      obtain ⟨norig, hlo, hla⟩ := hassigned (k, 0) (hkeyk ▸ key_assign_mem sh 0)
      rw [hla] at hln
      injection hln with hn
      rw [hlo] at hln'
      injection hln' with hn'
      rw [← hn, setDepth_parentNode, hn', hpn'] at hpn
      cases hpn
    · -- k is a child of q in the shape
      obtain ⟨no1, hlo1, hla1⟩ := hassigned (k, dq + 1) hk1
      rw [hla1] at hln
      injection hln with hn
      rw [hlo1] at hln'
      injection hln' with hn'
      have hpq : p = q := by
        rw [← hn, setDepth_parentNode, hn', hpar'] at hpn
        injection hpn with e
        exact e.symm
      obtain ⟨no2, hlo2, hla2⟩ := hassigned (q, dq) hq
      rw [hpq, hla2] at hlp
      injection hlp with hpn2
      refine ⟨dq, ?_, ?_⟩
      · rw [← hpn2, setDepth_depth]
      · rw [← hn, setDepth_depth]
  · -- (c) max_depth is the maximum depth over the node set
    have hnd1 : ((bfsFuel (amap env.rootHash (setDepth 0) t.nodes).length
        (amap env.rootHash (setDepth 0) t.nodes) [env.rootHash]).map
          Prod.fst).Nodup := by
      rw [hkeys1]
      exact hndar
    have hall : ∀ k n, alookup k (bfsFuel (amap env.rootHash
        (setDepth 0) t.nodes).length (amap env.rootHash (setDepth 0) t.nodes)
          [env.rootHash]) = some n → ∃ dn, n.depth = some dn := by
      intro k n hln
      have hkmem : k ∈ sh.keys := by
        apply hcover
        rw [← hkeys1]
        exact mem_keys_of_alookup hln
      have hkd : ∃ dk, (k, dk) ∈ sh.assign 0 := by
        rcases kid_link t.nodes sh 0 none hfit k hkmem with
          ⟨hmem0, -, -⟩ | ⟨q, dq, n', -, hk1, -, -⟩
        · exact ⟨0, hmem0⟩
        · exact ⟨dq + 1, hk1⟩
      obtain ⟨dk, hdk⟩ := hkd
      obtain ⟨norig, -, hla⟩ := hassigned (k, dk) hdk
      rw [hla] at hln
      injection hln with hn
      exact ⟨dk, by rw [← hn, setDepth_depth]⟩
    rw [hgd]
    refine ⟨listMaxNat ((bfsFuel (amap env.rootHash (setDepth 0) t.nodes).length
      (amap env.rootHash (setDepth 0) t.nodes) [env.rootHash]).map
        (fun p => p.2.depth.getD 0)), rfl, ?_, ?_⟩
    · intro k n hln
      obtain ⟨dn, hdn⟩ := hall k n hln
      refine ⟨dn, hdn, ?_⟩
      have hmem : (n.depth.getD 0)
          ∈ ((bfsFuel (amap env.rootHash (setDepth 0) t.nodes).length
            (amap env.rootHash (setDepth 0) t.nodes) [env.rootHash]).map
              (fun p => p.2.depth.getD 0)) :=
        List.mem_map.mpr ⟨(k, n), mem_of_alookup hln, rfl⟩
      rw [hdn] at hmem
      simpa using le_listMaxNat hmem
    · have hne : (bfsFuel (amap env.rootHash (setDepth 0) t.nodes).length
          (amap env.rootHash (setDepth 0) t.nodes) [env.rootHash]) ≠ [] := by
        intro he
        obtain ⟨norig, -, hla⟩ := hassigned (sh.key, 0) (key_assign_mem sh 0)
        rw [he] at hla
        cases hla
      have hmm := @listMaxNat_mem ((bfsFuel (amap env.rootHash
          (setDepth 0) t.nodes).length (amap env.rootHash (setDepth 0) t.nodes)
            [env.rootHash]).map (fun p => p.2.depth.getD 0))
        (by simpa using hne)
      obtain ⟨q, hqmem, hqval⟩ := List.mem_map.mp hmm
      have hlq : alookup q.1 (bfsFuel (amap env.rootHash
          (setDepth 0) t.nodes).length (amap env.rootHash (setDepth 0) t.nodes)
            [env.rootHash]) = some q.2 := by
        have : ((q.1, q.2) : ℤ × MasterNode) ∈ _ := hqmem
        exact alookup_of_mem_nodup hnd1 this
      obtain ⟨dq, hdq⟩ := hall q.1 q.2 hlq
      refine ⟨q.1, q.2, hlq, ?_⟩
      rw [hdq]
      rw [hdq] at hqval
      simpa using hqval

/-- The concrete chain tree realises its chain shape. -/
theorem depthTree_fits : Fits depthTree.nodes none chainShape := by
  simp only [chainShape, Fits, FitsF]
  exact ⟨⟨rootD, by decide, by decide, by decide⟩,
    ⟨⟨nodeAD, by decide, by decide, by decide⟩,
      ⟨⟨nodeBD, by decide, by decide, by decide⟩,
        ⟨⟨nodeC, by decide, by decide, by decide⟩, trivial⟩,
        trivial⟩,
      trivial⟩,
    trivial⟩

/-- Witness for C9 on the concrete chain: the root's depth is set to 0,
node C's depth is its parent's plus one, and `max_depth` is set. -/
theorem C9_get_depth_witness :
    depthOf (depthTree.get_depth testEnv) testEnv.rootHash = some (some 0)
    ∧ (depthTree.get_depth testEnv).max_depth.isSome := by
  obtain ⟨⟨rn, hl, hd⟩, -, ⟨m, hm, -, -⟩⟩ := C9_get_depth testEnv depthTree
    chainShape depthTree_fits (by decide) (by decide) (by decide) (by decide)
  constructor
  · rw [depthOf, hl, Option.map_some', hd]
  · rw [hm]
    rfl

end IBoat
